import Mathlib

/-!
# go_taskmanager: a shallow embedding of `main.go`

The monitor reads kernel-exposed text resources, parses them with the Go
standard library and renders rows.  This file embeds the functions of
`main.go` that the specification talks about, and the library functions they
call, after the documented behaviour of the Go standard library:

* Go strings are byte sequences (`GoString`); `len` and slicing count bytes;
* run-time panics (index out of range, slice bounds, nil dereference) are the
  `Except.error` results of the embedded functions;
* `float64` is modelled by `F64`: NaN, the two infinities and signed finite
  values, every operation rounding its exact result to the nearest point of
  the binary64 grid, ties to even;
* the host (process table, files, user database) is a record `Host`; within
  one cycle a path always reads the same content;
* a row of the process table is the record of the arguments that
  `getProcesses` hands to `fmt.Sprintf`.
-/

namespace TaskManager

/-! ## Go strings -/

/-- A Go string: a sequence of bytes, each byte a natural number below 256. -/
abbrev GoString := List Nat

/-- The bytes of an ASCII string literal of the source. -/
def ascii (s : String) : GoString := s.toList.map Char.toNat

/-- The run-time panics the embedded code can raise. -/
inductive Panic where
  | indexOutOfRange
  | sliceBounds
  | nilDereference
deriving DecidableEq, Repr

deriving instance DecidableEq for Except

/-- Go indexing `xs[i]`: panics when `i` is not below `len(xs)`. -/
def index {α : Type} (xs : List α) (i : Nat) : Except Panic α :=
  match xs[i]? with
  | some x => pure x
  | none => throw Panic.indexOutOfRange

/-- `strings.Contains(s, substr)`: `substr` occurs in `s` at some byte offset. -/
def Contains : GoString → GoString → Bool
  | [], substr => substr.isPrefixOf []
  | c :: rest, substr => substr.isPrefixOf (c :: rest) || Contains rest substr

/-- `strings.ReplaceAll(s, old, new)` for one-byte `old` and `new`. -/
def ReplaceAll (s : GoString) (old new : Nat) : GoString :=
  s.map fun c => if c = old then new else c

/-- `strings.Split(s, sep)` for a one-byte separator: the pieces between the
separators, one more than there are separators. -/
def Split (sep : Nat) : GoString → List GoString
  | [] => [[]]
  | c :: rest =>
    if c = sep then [] :: Split sep rest
    else
      match Split sep rest with
      | [] => [[c]]
      | piece :: pieces => (c :: piece) :: pieces

/-- Width in bytes of the white-space rune (`unicode.IsSpace`) that starts the
string, `0` when the string does not start with one.  The ASCII ones are
tab, newline, vertical tab, form feed, carriage return and space; the others
are U+0085, U+00A0, U+1680, U+2000..U+200A, U+2028, U+2029, U+202F, U+205F
and U+3000 in their UTF-8 encoding. -/
def spaceWidth : GoString → Nat
  | 0xC2 :: c :: _ => if c = 0x85 ∨ c = 0xA0 then 2 else 0
  | 0xE1 :: 0x9A :: 0x80 :: _ => 3
  | 0xE2 :: 0x80 :: c :: _ =>
    if (0x80 ≤ c ∧ c ≤ 0x8A) ∨ c = 0xA8 ∨ c = 0xA9 ∨ c = 0xAF then 3 else 0
  | 0xE2 :: 0x81 :: 0x9F :: _ => 3
  | 0xE3 :: 0x80 :: 0x80 :: _ => 3
  | c :: _ => if c = 0x09 ∨ c = 0x0A ∨ c = 0x0B ∨ c = 0x0C ∨ c = 0x0D ∨ c = 0x20 then 1 else 0
  | [] => 0

/-- Scanner behind `Fields`: `skip` counts the bytes of a white-space rune
still to be dropped, `cur` is the field being read, in reverse. -/
def fieldsAux : GoString → Nat → GoString → List GoString
  | [], _, cur => if cur = [] then [] else [cur.reverse]
  | _ :: rest, skip + 1, cur => fieldsAux rest skip cur
  | c :: rest, 0, cur =>
    if spaceWidth (c :: rest) = 0 then fieldsAux rest 0 (c :: cur)
    else if cur = [] then fieldsAux rest (spaceWidth (c :: rest) - 1) []
    else cur.reverse :: fieldsAux rest (spaceWidth (c :: rest) - 1) []

/-- `strings.Fields(s)`: the maximal runs of non-white-space bytes of `s`. -/
def Fields (s : GoString) : List GoString := fieldsAux s 0 []

/-- Drop the trailing slashes of a path. -/
def stripTrailingSlashes (path : GoString) : GoString :=
  (path.reverse.dropWhile (· = 0x2F)).reverse

/-- The part of a path after its last slash. -/
def lastElement (path : GoString) : GoString :=
  (path.reverse.takeWhile (· ≠ 0x2F)).reverse

/-- `filepath.Base(path)` on a Unix host. -/
def Base (path : GoString) : GoString :=
  if path = [] then ascii "."
  else
    let last := lastElement (stripTrailingSlashes path)
    if last = [] then ascii "/" else last

/-- `truncateString(str, num)` of `main.go`. -/
def truncateString (str : GoString) (num : Int) : Except Panic GoString :=
  if (str.length : Int) ≤ num then pure str
  else if num > 3 then pure (str.take (num - 3).toNat ++ ascii "...")
  else if 0 ≤ num then pure (str.take num.toNat)
  else throw Panic.sliceBounds

/-! ## float64 -/

/-- A `float64` value: NaN, an infinity with its sign, or a finite value given
by its sign and magnitude (so that `-0` is `fin true 0`).  The magnitudes the
operations produce lie on the binary64 grid, see `roundMag`. -/
inductive F64 where
  | nan
  | inf (neg : Bool)
  | fin (neg : Bool) (mag : ℚ)
deriving DecidableEq

/-- The power `b ^ e` for an integer exponent. -/
def powInt (b : Nat) (e : Int) : ℚ :=
  if 0 ≤ e then ((b ^ e.toNat : ℕ) : ℚ) else 1 / ((b ^ (-e).toNat : ℕ) : ℚ)

/-- Number of halvings that bring `n` below 2, with `fuel` bounding the count. -/
def halvings : Nat → Nat → Nat
  | 0, _ => 0
  | fuel + 1, n => if n < 2 then 0 else halvings fuel (n / 2) + 1

/-- Floor of the binary logarithm of a positive rational. -/
def floorLog2 (q : ℚ) : Int :=
  let k : Int := (halvings q.num.toNat q.num.toNat : Int) - (halvings q.den q.den : Int)
  if powInt 2 k ≤ q then k else k - 1

/-- Exponent of the binary64 grid at a positive rational: 53 significant bits,
and the subnormal spacing `2 ^ (-1074)` as the finest. -/
def gridExp (q : ℚ) : Int := max (floorLog2 q - 52) (-1074)

/-- Nearest natural number to a non-negative rational, ties to the even one. -/
def roundHalfEven (x : ℚ) : ℕ :=
  if x - ⌊x⌋₊ < 1 / 2 then ⌊x⌋₊
  else if 1 / 2 < x - ⌊x⌋₊ then ⌊x⌋₊ + 1
  else if ⌊x⌋₊ % 2 = 0 then ⌊x⌋₊ else ⌊x⌋₊ + 1

/-- Round a non-negative rational to the nearest point of the binary64 grid,
ties to even (no overflow check). -/
def roundMag (q : ℚ) : ℚ :=
  if q = 0 then 0 else (roundHalfEven (q / powInt 2 (gridExp q)) : ℚ) * powInt 2 (gridExp q)

/-- The `float64` nearest to the magnitude `q` with sign `neg`; a result of
`2 ^ 1024` or more overflows to the infinity. -/
def roundF (neg : Bool) (q : ℚ) : F64 :=
  if powInt 2 1024 ≤ roundMag q then F64.inf neg else F64.fin neg (roundMag q)

namespace F64

/-- The signed value of a finite float (`0` for NaN and the infinities). -/
def toRat : F64 → ℚ
  | fin neg mag => if neg then -mag else mag
  | _ => 0

/-- The `float64` nearest to a non-zero rational. -/
def ofRat (q : ℚ) : F64 := roundF (decide (q < 0)) |q|

/-- A float is finite when it is neither NaN nor an infinity. -/
def isFinite : F64 → Bool
  | fin _ _ => true
  | _ => false

/-- Unary minus. -/
def neg : F64 → F64
  | nan => nan
  | inf s => inf (!s)
  | fin s m => fin (!s) m

/-- IEEE 754 addition, round to nearest even. -/
def add : F64 → F64 → F64
  | nan, _ => nan
  | _, nan => nan
  | inf s, inf t => if s = t then inf s else nan
  | inf s, fin _ _ => inf s
  | fin _ _, inf t => inf t
  | fin s a, fin t b =>
    if toRat (fin s a) + toRat (fin t b) = 0 then fin (s && t) 0
    else ofRat (toRat (fin s a) + toRat (fin t b))

/-- IEEE 754 subtraction. -/
def sub (x y : F64) : F64 := add x (neg y)

/-- IEEE 754 multiplication. -/
def mul : F64 → F64 → F64
  | nan, _ => nan
  | _, nan => nan
  | inf s, inf t => inf (s != t)
  | inf s, fin t b => if b = 0 then nan else inf (s != t)
  | fin s a, inf t => if a = 0 then nan else inf (s != t)
  | fin s a, fin t b => roundF (s != t) (a * b)

/-- IEEE 754 division. -/
def div : F64 → F64 → F64
  | nan, _ => nan
  | _, nan => nan
  | inf _, inf _ => nan
  | inf s, fin t _ => inf (s != t)
  | fin s _, inf t => fin (s != t) 0
  | fin s a, fin t b =>
    if b = 0 then (if a = 0 then nan else inf (s != t))
    else roundF (s != t) (a / b)

/-- Go's `x <= y` on floats: false as soon as one side is NaN. -/
def le : F64 → F64 → Bool
  | nan, _ => false
  | _, nan => false
  | inf s, inf t => s || !t
  | inf s, fin _ _ => s
  | fin _ _, inf t => !t
  | fin s a, fin t b => decide (toRat (fin s a) ≤ toRat (fin t b))

/-- Go's `x < y` on floats: false as soon as one side is NaN. -/
def lt : F64 → F64 → Bool
  | nan, _ => false
  | _, nan => false
  | inf s, inf t => s && !t
  | inf s, fin _ _ => s
  | fin _ _, inf t => !t
  | fin s a, fin t b => decide (toRat (fin s a) < toRat (fin t b))

/-- The float constant of an integer literal of the source (all of them are
small enough to be exact). -/
def ofNat (n : Nat) : F64 := fin false n

/-- Go's conversion `int(x)`: the value truncated toward zero when that fits
a 64-bit `int`; otherwise the language leaves the result to the
implementation, here the argument `undef`. -/
def toInt (undef : Int) : F64 → Int
  | fin neg mag =>
    if mag < powInt 2 63 then (if neg then -(⌊mag⌋₊ : Int) else (⌊mag⌋₊ : Int)) else undef
  | _ => undef

end F64

/-! ## strconv -/

/-- The errors of `strconv.ParseFloat`: `ErrSyntax` and `ErrRange`. -/
inductive NumError where
  | malformed
  | outOfRange
deriving DecidableEq, Repr

/-- Go's `lower(c)`: `c | ('x' - 'X')`. -/
def lower (c : Nat) : Nat := c ||| 0x20

/-- Length of the longest common prefix of `s` and `pre`, `s` compared with its
upper-case ASCII letters lowered. -/
def commonPrefixLenIgnoreCase : GoString → GoString → Nat
  | c :: s, p :: pre =>
    if (if 65 ≤ c ∧ c ≤ 90 then c + 32 else c) = p then commonPrefixLenIgnoreCase s pre + 1 else 0
  | _, _ => 0

/-- Length of the infinity literal that starts `s`: 8 for "infinity", 3 for
"inf", otherwise 0 (any case). -/
def infinityLen (s : GoString) : Nat :=
  let n := commonPrefixLenIgnoreCase s (ascii "infinity")
  let n := if 3 < n ∧ n < 8 then 3 else n
  if n = 3 ∨ n = 8 then n else 0

/-- Go's `special`: the literals for the infinities and NaN, with the number of
bytes consumed. -/
def special : GoString → Option (F64 × Nat)
  | [] => none
  | c :: rest =>
    if c = 43 ∨ c = 45 then
      if infinityLen rest = 0 then none else some (F64.inf (c = 45), 1 + infinityLen rest)
    else if c = 105 ∨ c = 73 then
      if infinityLen (c :: rest) = 0 then none else some (F64.inf false, infinityLen (c :: rest))
    else if c = 110 ∨ c = 78 then
      if commonPrefixLenIgnoreCase (c :: rest) (ascii "nan") = 3 then some (F64.nan, 3) else none
    else none

/-- State of the mantissa loop of Go's `readFloat`. -/
structure Digits where
  mant : Nat := 0
  nd : Nat := 0
  dp : Int := 0
  sawdot : Bool := false
  sawdigits : Bool := false
  underscores : Bool := false
deriving DecidableEq

/-- The mantissa loop of `readFloat`: digits, one dot, underscores; returns the
state and the unread rest.  `mant` keeps every significant digit. -/
def readDigits (hex : Bool) : GoString → Digits → Digits × GoString
  | [], st => (st, [])
  | c :: rest, st =>
    if c = 95 then readDigits hex rest { st with underscores := true }
    else if c = 46 then
      if st.sawdot then (st, c :: rest)
      else readDigits hex rest { st with sawdot := true, dp := st.nd }
    else if 48 ≤ c ∧ c ≤ 57 then
      if c = 48 ∧ st.nd = 0 then readDigits hex rest { st with sawdigits := true, dp := st.dp - 1 }
      else readDigits hex rest
        { st with sawdigits := true, nd := st.nd + 1,
                  mant := st.mant * (if hex then 16 else 10) + (c - 48) }
    else if hex ∧ 97 ≤ lower c ∧ lower c ≤ 102 then
      readDigits hex rest
        { st with sawdigits := true, nd := st.nd + 1, mant := st.mant * 16 + (lower c - 97 + 10) }
    else (st, c :: rest)

/-- The exponent loop of `readFloat`: digits and underscores; the value
saturates once it reaches 10000. -/
def readExp : GoString → Nat → Bool → Nat × Bool × GoString
  | [], e, u => (e, u, [])
  | c :: rest, e, u =>
    if c = 95 then readExp rest e true
    else if 48 ≤ c ∧ c ≤ 57 then readExp rest (if e < 10000 then e * 10 + (c - 48) else e) u
    else (e, u, c :: rest)

/-- Scanner of Go's `underscoreOK`; `saw` is the last character class seen:
`0` digit or base prefix, `1` underscore, `2` anything else (or the start). -/
def underscoreScan (hex : Bool) : GoString → Nat → Bool
  | [], saw => saw ≠ 1
  | c :: rest, saw =>
    if (48 ≤ c ∧ c ≤ 57) ∨ (hex ∧ 97 ≤ lower c ∧ lower c ≤ 102) then underscoreScan hex rest 0
    else if c = 95 then (if saw ≠ 0 then false else underscoreScan hex rest 1)
    else if saw = 1 then false
    else underscoreScan hex rest 2

/-- Go's `underscoreOK`: underscores only between digits (or right after a
base prefix). -/
def underscoreOK (s : GoString) : Bool :=
  let s := match s with
    | c :: rest => if c = 45 ∨ c = 43 then rest else c :: rest
    | [] => []
  match s with
  | 48 :: c :: rest =>
    if lower c = 98 ∨ lower c = 111 ∨ lower c = 120 then underscoreScan (lower c = 120) rest 0
    else underscoreScan false s 2
  | _ => underscoreScan false s 2

/-- Result of Go's `readFloat`: the digits as a number, the exponent of the
base (10, or 2 for a hexadecimal mantissa), the sign and the unread rest. -/
structure ReadFloat where
  mant : Nat
  exp : Int
  neg : Bool
  hex : Bool
  rest : GoString
deriving DecidableEq

/-- The exponent part of `readFloat`, after the mantissa `st` was read from a
literal `s` with `body` left. -/
def readFloatExp (s : GoString) (neg hex : Bool) (st : Digits) (body : GoString) :
    Option ReadFloat :=
  let dp : Int := (if st.sawdot then st.dp else st.nd) * (if hex then 4 else 1)
  let ndMant : Int := st.nd * (if hex then 4 else 1)
  let finish (dp : Int) (underscores : Bool) (rest : GoString) : Option ReadFloat :=
    if underscores ∧ ¬ underscoreOK (s.take (s.length - rest.length)) then none
    else some { mant := st.mant, exp := if st.mant ≠ 0 then dp - ndMant else 0,
                neg := neg, hex := hex, rest := rest }
  match body with
  | c :: rest =>
    if lower c = (if hex then 112 else 101) then
      match rest with
      | [] => none
      | d :: rest1 =>
        let esign : Int := if d = 45 then -1 else 1
        let digits := if d = 43 ∨ d = 45 then rest1 else d :: rest1
        match digits with
        | [] => none
        | d0 :: _ =>
          if d0 < 48 ∨ 57 < d0 then none
          else
            let r := readExp digits 0 st.underscores
            finish (dp + (r.1 : Int) * esign) r.2.1 r.2.2
    else if hex then none
    else finish dp st.underscores body
  | [] => if hex then none else finish dp st.underscores body

/-- Go's `readFloat`: sign, optional `0x` prefix, mantissa, exponent; `none`
when the literal is malformed. -/
def readFloat (s : GoString) : Option ReadFloat :=
  match s with
  | [] => none
  | c :: rest =>
    let neg := decide (c = 45)
    let body := if c = 43 ∨ c = 45 then rest else s
    match body with
    | 48 :: x :: y :: more =>
      if lower x = 120 then
        let r := readDigits true (y :: more) {}
        if r.1.sawdigits then readFloatExp s neg true r.1 r.2 else none
      else
        let r := readDigits false body {}
        if r.1.sawdigits then readFloatExp s neg false r.1 r.2 else none
    | _ =>
      let r := readDigits false body {}
      if r.1.sawdigits then readFloatExp s neg false r.1 r.2 else none

/-- `strconv.ParseFloat(s, 64)`: the nearest `float64` to the literal and the
error, `ErrSyntax` with value 0 for a malformed literal, `ErrRange` with an
infinity for a literal that overflows. -/
def ParseFloat (s : GoString) : F64 × Option NumError :=
  match special s with
  | some (v, n) => if n = s.length then (v, none) else (F64.ofNat 0, some NumError.malformed)
  | none =>
    match readFloat s with
    | none => (F64.ofNat 0, some NumError.malformed)
    | some r =>
      if r.rest ≠ [] then (F64.ofNat 0, some NumError.malformed)
      else
        let v := roundF r.neg ((r.mant : ℚ) * powInt (if r.hex then 2 else 10) r.exp)
        (v, if v.isFinite then none else some NumError.outOfRange)

/-- The digits of an integer literal, after its optional sign. -/
def intDigits : GoString → GoString
  | c :: rest => if c = 43 ∨ c = 45 then rest else c :: rest
  | [] => []

/-- The literals that `strconv.Atoi` takes without a syntax error: an optional
sign and at least one decimal digit, nothing else. -/
def isIntLiteral (s : GoString) : Bool :=
  decide (intDigits s ≠ []) && (intDigits s).all (fun c => decide (48 ≤ c ∧ c ≤ 57))

/-- Go's `strconv.Atoi(s)` for a 64-bit `int`, the error dropped: 0 for a
malformed literal, the nearest bound for one out of range. -/
def Atoi (s : GoString) : Int :=
  if isIntLiteral s then
    let n : Nat := (intDigits s).foldl (fun acc c => acc * 10 + (c - 48)) 0
    if s.head? = some 45 then (if 2 ^ 63 < n then -(2 ^ 63 : Int) else -(n : Int))
    else (if 2 ^ 63 ≤ n then (2 ^ 63 - 1 : Int) else (n : Int))
  else 0

/-- Go's `strconv.Itoa(i)`: the decimal digits, with a minus sign when negative. -/
def Itoa (i : Int) : GoString :=
  if i < 0 then 45 :: (Nat.toDigits 10 i.natAbs).map Char.toNat
  else (Nat.toDigits 10 i.natAbs).map Char.toNat

/-! ## The host and the functions of `main.go` -/

/-- One entry of a directory listing: what `Name()` and `IsDir()` return. -/
structure DirEntry where
  name : GoString
  isDir : Bool
deriving DecidableEq

/-- The host as the program sees it during one cycle: the listing that
`ioutil.ReadDir("/proc")` returns (empty when it fails), the content that
`ioutil.ReadFile` returns for a path (`none` when the read fails) and the user
database behind `user.LookupId` (`none` when the lookup fails). -/
structure Host where
  procDir : List DirEntry
  readFile : GoString → Option GoString
  lookupId : GoString → Option GoString

/-- The data of `data, _ := ioutil.ReadFile(path)`: empty when the read fails. -/
def Host.read (h : Host) (path : GoString) : GoString := (h.readFile path).getD []

/-- `isNumeric(s)` of `main.go`: `strconv.ParseFloat(s, 64)` returns no error. -/
def isNumeric (s : GoString) : Bool := decide ((ParseFloat s).2 = none)

/-- `getUserForPid(pid)` of `main.go`. -/
def getUserForPid (h : Host) (pid : GoString) : Except Panic GoString := do
  let uidByte := h.read (ascii "/proc/" ++ pid ++ ascii "/status")
  let uidStr ← index (Split 10 uidByte) 7
  let token ← index (Split 9 uidStr) 1
  let uid := Atoi token
  match h.lookupId (Itoa uid) with
  | some username => pure username
  | none => throw Panic.nilDereference

/-- The arguments that `getProcesses` passes to `fmt.Sprintf` for one row:
the two percentages are the floats that `%.2f` prints. -/
structure Row where
  pid : GoString
  user : GoString
  status : GoString
  cpuPercent : F64
  memPercent : F64
  cmd : GoString
deriving DecidableEq

/-- The command shown for a process: NUL bytes to spaces, base name, at most
50 bytes (lines 105 to 107 of `main.go`). -/
def displayCommand (cmdline : GoString) : Except Panic GoString :=
  truncateString (Base (ReplaceAll cmdline 0 32)) 50

/-- Body of the loop of `getProcesses` for a numeric directory `pid`: the row,
when the filter keeps it. -/
def getProcessesEntry (h : Host) (filter pid : GoString) : Except Panic (Option Row) := do
  let cmdline := h.read (ascii "/proc/" ++ pid ++ ascii "/cmdline")
  let stat := h.read (ascii "/proc/" ++ pid ++ ascii "/stat")
  let meminfo := h.read (ascii "/proc/meminfo")
  let fields := Fields stat
  let utime := (ParseFloat (← index fields 13)).1
  let stime := (ParseFloat (← index fields 14)).1
  let cutime := (ParseFloat (← index fields 15)).1
  let cstime := (ParseFloat (← index fields 16)).1
  let starttime := (ParseFloat (← index fields 21)).1
  let vsize := (ParseFloat (← index fields 22)).1
  let totalMem := (ParseFloat (← index (Fields meminfo) 1)).1
  let cpuUsage := (((utime.add stime).add cutime).add cstime).div starttime
  let memUsage := (vsize.div (F64.ofNat 1024)).div totalMem
  let status ← index fields 2
  let user ← getUserForPid h pid
  let cmd ← displayCommand cmdline
  if Contains user filter || Contains pid filter || Contains cmd filter then
    pure (some { pid := pid, user := user, status := status,
                 cpuPercent := cpuUsage.mul (F64.ofNat 100),
                 memPercent := memUsage.mul (F64.ofNat 100), cmd := cmd })
  else pure none

/-- The loop of `getProcesses` over the listing, `output` being the rows
appended so far. -/
def getProcessesLoop (h : Host) (filter : GoString) :
    List DirEntry → List Row → Except Panic (List Row)
  | [], output => pure output
  | file :: files, output =>
    if file.isDir && isNumeric file.name then do
      match ← getProcessesEntry h filter file.name with
      | some row => getProcessesLoop h filter files (output ++ [row])
      | none => getProcessesLoop h filter files output
    else getProcessesLoop h filter files output

/-- `getProcesses(filter)` of `main.go`. -/
def getProcesses (h : Host) (filter : GoString) : Except Panic (List Row) :=
  getProcessesLoop h filter h.procDir []

/-- `getMemoryInfo()` of `main.go`: total, used and usage fraction. -/
def getMemoryInfo (h : Host) : Except Panic (F64 × F64 × F64) := do
  let meminfo := h.read (ascii "/proc/meminfo")
  let lines := Split 10 meminfo
  let totalMem := (ParseFloat (← index (Fields (← index lines 0)) 1)).1
  let freeMem := (ParseFloat (← index (Fields (← index lines 1)) 1)).1
  let usedMem := totalMem.sub freeMem
  let memUsage := usedMem.div totalMem
  pure (totalMem, usedMem, memUsage)

/-- The four accumulators of the loop of `getCPUUsage`. -/
structure CpuSums where
  total1 : F64
  total2 : F64
  idle1 : F64
  idle2 : F64
deriving DecidableEq

/-- The loop of `getCPUUsage` over `cpuTimes1`, from index `i` on. -/
def cpuLoop (cpuTimes2 : List GoString) : List GoString → Nat → CpuSums → Except Panic CpuSums
  | [], _, acc => pure acc
  | v :: rest, i, acc => do
    let t1 := (ParseFloat v).1
    let t2 := (ParseFloat (← index cpuTimes2 i)).1
    cpuLoop cpuTimes2 rest (i + 1)
      { total1 := acc.total1.add t1, total2 := acc.total2.add t2,
        idle1 := if i = 3 then t1 else acc.idle1,
        idle2 := if i = 3 then t2 else acc.idle2 }

/-- Go's slice expression `xs[1:]`: panics on an empty slice. -/
def sliceFrom1 {α : Type} : List α → Except Panic (List α)
  | [] => throw Panic.sliceBounds
  | _ :: rest => pure rest

/-- `getCPUUsage()` of `main.go`, as a function of the two contents of
`/proc/stat` that it reads half a second apart. -/
def getCPUUsage (cpuinfo1 cpuinfo2 : GoString) : Except Panic F64 := do
  let cpuTimes1 ← sliceFrom1 (Fields (← index (Split 10 cpuinfo1) 0))
  let cpuTimes2 ← sliceFrom1 (Fields (← index (Split 10 cpuinfo2) 0))
  let acc ← cpuLoop cpuTimes2 cpuTimes1 0
    { total1 := F64.ofNat 0, total2 := F64.ofNat 0, idle1 := F64.ofNat 0, idle2 := F64.ofNat 0 }
  pure ((F64.ofNat 1).sub ((acc.idle2.sub acc.idle1).div (acc.total2.sub acc.total1)))

/-- The 20 positions that `printUsageBar` prints between the brackets. -/
def usageBarCells (numBlocks : Int) : GoString :=
  (List.range 20).map fun (i : Nat) => if (i : Int) < numBlocks then 61 else 32

/-- `printUsageBar(label, usage)` of `main.go`: the bytes it prints.  `undef`
is what the platform gives for `int(x)` when `x` does not fit an `int`. -/
def printUsageBar (undef : Int) (label : GoString) (usage : F64) : GoString :=
  let numBlocks := F64.toInt undef (usage.mul (F64.ofNat 20))
  label ++ ascii " [" ++ usageBarCells numBlocks ++ ascii "]\n"

/-! ## Notions used in the statements -/

/-- Go's `ParseFloat` with the error dropped: `v, _ := strconv.ParseFloat(s, 64)`. -/
def parseValue (s : GoString) : F64 := (ParseFloat s).1

/-- The white-space separated fields of the stat resource of a process. -/
def statFields (h : Host) (pid : GoString) : List GoString :=
  Fields (h.read (ascii "/proc/" ++ pid ++ ascii "/stat"))

/-- The white-space separated fields of the memory-info resource. -/
def memFields (h : Host) : List GoString := Fields (h.read (ascii "/proc/meminfo"))

/-- The status resource of a process. -/
def statusOf (h : Host) (pid : GoString) : GoString :=
  h.read (ascii "/proc/" ++ pid ++ ascii "/status")

/-- The command that `getProcesses` shows for a process. -/
def commandOf (h : Host) (pid : GoString) : Except Panic GoString :=
  displayCommand (h.read (ascii "/proc/" ++ pid ++ ascii "/cmdline"))

/-- The row that `getProcesses` builds from the fields of a stat line, the
fields of the memory info, the user name and the command. -/
def rowOf (pid u c : GoString) (fs ms : List GoString) (hfs : 23 ≤ fs.length)
    (hms : 2 ≤ ms.length) : Row :=
  { pid := pid, user := u, status := fs[2],
    cpuPercent :=
      (((((parseValue fs[13]).add (parseValue fs[14])).add (parseValue fs[15])).add
        (parseValue fs[16])).div (parseValue fs[21])).mul (F64.ofNat 100),
    memPercent :=
      (((parseValue fs[22]).div (F64.ofNat 1024)).div (parseValue ms[1])).mul (F64.ofNat 100),
    cmd := c }

/-- What the loop of `getProcesses` appends for one directory entry: the row
of a numeric-named directory that the filter keeps, nothing otherwise. -/
def keptRow (h : Host) (filter : GoString) (file : DirEntry) : Option Row :=
  if file.isDir && isNumeric file.name then
    match getProcessesEntry h filter file.name with
    | .ok r => r
    | .error _ => none
  else none

/-- The first line of a resource. -/
def firstLine (content : GoString) : GoString := (Split 10 content).headD []

/-- The sum, in `float64` and from left to right, of the fields of a counter
line. -/
def totalOf (fs : List GoString) : F64 := (fs.map parseValue).foldl F64.add (F64.ofNat 0)

/-- The field at index 3 of a counter line (zero when the line is shorter). -/
def idleOf (fs : List GoString) : F64 :=
  match fs[3]? with
  | some v => parseValue v
  | none => F64.ofNat 0

/-- The idle accumulator after the loop of `getCPUUsage` ran over `fs` from
index `i` on, `acc` being its value before. -/
def idleFrom (i : Nat) (fs : List GoString) (acc : F64) : F64 :=
  if i ≤ 3 then
    match fs[3 - i]? with
    | some v => parseValue v
    | none => acc
  else acc

/-- A byte is a decimal digit. -/
def IsDigit (c : Nat) : Prop := 48 ≤ c ∧ c ≤ 57

instance (c : Nat) : Decidable (IsDigit c) := by
  unfold IsDigit
  infer_instance

/-- A magnitude lies on the binary64 grid when it is a natural number of at
most 53 bits times a power of two that is at least `2 ^ (-1074)`. -/
def OnGrid (y : ℚ) : Prop :=
  ∃ (m : ℕ) (e : ℤ), m < 2 ^ 53 ∧ -1074 ≤ e ∧ y = (m : ℚ) * (2 : ℚ) ^ e

/-- A float is well formed when, if finite, its magnitude is on the binary64
grid and below `2 ^ 1024`, as the results of `roundF` are. -/
def F64.WF : F64 → Prop
  | F64.fin _ m => OnGrid m ∧ m < 2 ^ 1024
  | _ => True

/-! ## Hosts and inputs of the examples -/

/-- A stat line with 23 fields. -/
def statLine (pid state : String) : GoString :=
  ascii (pid ++ " (cmd) " ++ state ++ " 0 1 1 0 -1 4194560 100 0 0 0 10 20 3 7 20 0 1 0 80 2048")

/-- A status resource whose 8th line carries the token `uid` after a tab. -/
def statusFile (uid : String) : GoString :=
  ascii ("Name:\tcmd\nState:\tS\nTgid:\t1\nNgid:\t0\nPid:\t1\nPPid:\t0\nTracerPid:\t0\nUid:\t"
    ++ uid ++ "\t0\t0\t0\nGid:\t0\n")

/-- Files of a host with the processes 1 and 2. -/
def sampleFiles (path : GoString) : Option GoString :=
  if path = ascii "/proc/meminfo" then some (ascii "MemTotal: 4096 kB\nMemFree: 1024 kB\n")
  else if path = ascii "/proc/1/stat" then some (statLine "1" "S")
  else if path = ascii "/proc/1/status" then some (statusFile "0")
  else if path = ascii "/proc/1/cmdline" then some (ascii "/sbin/init\x00splash\x00")
  else if path = ascii "/proc/2/stat" then some (statLine "2" "R")
  else if path = ascii "/proc/2/status" then some (statusFile "1000")
  else if path = ascii "/proc/2/cmdline" then some (ascii "/usr/bin/top\x00")
  else none

/-- User database with root and one user. -/
def sampleUsers (uid : GoString) : Option GoString :=
  if uid = ascii "0" then some (ascii "root")
  else if uid = ascii "1000" then some (ascii "alice")
  else none

/-- The synthetic process table of the specification, "1", "2" and "abc", and
a plain file. -/
def sampleHost : Host :=
  { procDir := [⟨ascii "1", true⟩, ⟨ascii "2", true⟩, ⟨ascii "abc", true⟩, ⟨ascii "uptime", false⟩],
    readFile := sampleFiles, lookupId := sampleUsers }

/-- The row of process 2 of `sampleHost`. -/
def sampleRow2 : Row :=
  { pid := ascii "2", user := ascii "alice", status := ascii "R", cpuPercent := F64.fin false 50,
    memPercent := F64.fin false (25 / 512), cmd := ascii "top " }

/-- A host whose process table lists the directory `1` while no resource can
be read (the process exited after the listing was taken). -/
def crashHost : Host :=
  { procDir := [⟨ascii "1", true⟩], readFile := fun _ => none, lookupId := sampleUsers }

/-- A host whose process 1 has a status resource with the token `token` on its
8th line, and a user database that knows root only. -/
def tokenHost (token : String) : Host :=
  { procDir := [⟨ascii "1", true⟩],
    readFile := fun path => if path = ascii "/proc/1/status" then some (statusFile token) else none,
    lookupId := fun uid => if uid = ascii "0" then some (ascii "root") else none }

/-- A host whose memory info reports the given totals. -/
def memHost (total free : String) : Host :=
  { procDir := [],
    readFile := fun path =>
      if path = ascii "/proc/meminfo" then
        some (ascii ("MemTotal: " ++ total ++ " kB\nMemFree: " ++ free ++ " kB\n"))
      else none,
    lookupId := fun _ => none }

/-- A counter line whose idle field is the decimal integer `10 ^ 400`. -/
def hugeIdleLine : GoString := ascii "cpu 0 0 0 1" ++ List.replicate 400 48 ++ ascii " 0\n"

/-! ## Lemmas on the string and slice operations -/

theorem index_of_lt {α : Type} (xs : List α) (i : Nat) (hi : i < xs.length) :
    index xs i = .ok xs[i] := by
  simp [index, List.getElem?_eq_getElem hi, pure, Except.pure]

theorem index_ok_iff {α : Type} (xs : List α) (i : Nat) (x : α) :
    index xs i = .ok x ↔ xs[i]? = some x := by
  unfold index
  cases hx : xs[i]? <;> simp [pure, Except.pure, throw, throwThe, MonadExceptOf.throw]

theorem index_of_le {α : Type} (xs : List α) (i : Nat) (hi : xs.length ≤ i) :
    index xs i = .error Panic.indexOutOfRange := by
  simp [index, List.getElem?_eq_none hi, throw, throwThe, MonadExceptOf.throw]

theorem index_ok_lt {α : Type} {xs : List α} {i : Nat} {x : α} (hx : index xs i = .ok x) :
    i < xs.length := by
  by_contra hlt
  rw [index_of_le xs i (by omega)] at hx
  cases hx

theorem contains_iff_infix (s substr : GoString) :
    Contains s substr = true ↔ substr <:+: s := by
  induction s with
  | nil =>
    cases substr <;> simp [Contains, List.isPrefixOf]
  | cons c rest ih =>
    simp only [Contains, Bool.or_eq_true, ih, List.isPrefixOf_iff_prefix, List.infix_cons_iff]


theorem commandOf_ok (h : Host) (pid : GoString) : ∃ c, commandOf h pid = .ok c := by
  unfold commandOf displayCommand truncateString
  split
  · exact ⟨_, rfl⟩
  · exact ⟨_, rfl⟩

theorem getProcessesEntry_eq (h : Host) (filter pid u c : GoString)
    (hfs : 23 ≤ (statFields h pid).length) (hms : 2 ≤ (memFields h).length)
    (hu : getUserForPid h pid = .ok u) (hc : commandOf h pid = .ok c) :
    getProcessesEntry h filter pid = .ok
      (if Contains u filter || Contains pid filter || Contains c filter then
        some (rowOf pid u c (statFields h pid) (memFields h) hfs hms)
      else none) := by
  unfold commandOf at hc
  unfold getProcessesEntry
  have e13 := index_of_lt (statFields h pid) 13 (by omega)
  have e14 := index_of_lt (statFields h pid) 14 (by omega)
  have e15 := index_of_lt (statFields h pid) 15 (by omega)
  have e16 := index_of_lt (statFields h pid) 16 (by omega)
  have e21 := index_of_lt (statFields h pid) 21 (by omega)
  have e22 := index_of_lt (statFields h pid) 22 (by omega)
  have e2 := index_of_lt (statFields h pid) 2 (by omega)
  have e1 := index_of_lt (memFields h) 1 (by omega)
  unfold statFields at e13 e14 e15 e16 e21 e22 e2
  unfold memFields at e1
  simp only [e13, e14, e15, e16, e21, e22, e2, e1, hu, hc, bind, Except.bind]
  split <;> rfl
theorem getProcessesEntry_inv {h : Host} {filter pid : GoString} {r : Option Row}
    (hr : getProcessesEntry h filter pid = .ok r) :
    ∃ (hfs : 23 ≤ (statFields h pid).length) (hms : 2 ≤ (memFields h).length) (u c : GoString),
      getUserForPid h pid = .ok u ∧ commandOf h pid = .ok c ∧
      r = if Contains u filter || Contains pid filter || Contains c filter then
            some (rowOf pid u c (statFields h pid) (memFields h) hfs hms)
          else none := by
  have key : 23 ≤ (statFields h pid).length ∧ 2 ≤ (memFields h).length ∧
      ∃ u, getUserForPid h pid = .ok u := by
    unfold getProcessesEntry at hr
    simp only [bind, Except.bind] at hr
    split at hr
    · cases hr
    split at hr
    · cases hr
    split at hr
    · cases hr
    split at hr
    · cases hr
    split at hr
    · cases hr
    rename_i v21 e21
    split at hr
    · cases hr
    rename_i v22 e22
    split at hr
    · cases hr
    rename_i v1 e1
    split at hr
    · cases hr
    split at hr
    · cases hr
    rename_i u eu
    refine ⟨?_, ?_, u, eu⟩
    · have := index_ok_lt e22
      unfold statFields
      omega
    · have := index_ok_lt e1
      unfold memFields
      omega
  obtain ⟨hfs, hms, u, hu⟩ := key
  obtain ⟨c, hc⟩ := commandOf_ok h pid
  refine ⟨hfs, hms, u, c, hu, hc, ?_⟩
  rw [getProcessesEntry_eq h filter pid u c hfs hms hu hc] at hr
  exact (Except.ok.inj hr).symm

theorem getProcessesLoop_ok {h : Host} {filter : GoString} (files : List DirEntry) :
    ∀ (output rows : List Row), getProcessesLoop h filter files output = .ok rows →
      rows = output ++ files.filterMap (keptRow h filter) := by
  induction files with
  | nil =>
    intro output rows hr
    simp [getProcessesLoop, pure, Except.pure] at hr
    simp [hr]
  | cons file files ih =>
    intro output rows hr
    unfold getProcessesLoop at hr
    by_cases hp : (file.isDir && isNumeric file.name) = true
    · simp only [hp, if_true, bind, Except.bind] at hr
      cases he : getProcessesEntry h filter file.name with
      | error p => simp [he] at hr
      | ok r =>
        simp only [he] at hr
        cases r with
        | none =>
          simp only at hr
          rw [ih output rows hr]
          simp [List.filterMap_cons, keptRow, hp, he]
        | some row =>
          simp only at hr
          rw [ih (output ++ [row]) rows hr]
          simp [List.filterMap_cons, keptRow, hp, he]
    · simp only [hp] at hr
      rw [ih output rows hr]
      simp [List.filterMap_cons, keptRow, hp]

theorem getProcessesLoop_total {h : Host} {filter : GoString} (files : List DirEntry)
    (hall : ∀ file ∈ files, file.isDir = true → isNumeric file.name = true →
      ∃ r, getProcessesEntry h filter file.name = .ok r) :
    ∀ output : List Row, ∃ rows, getProcessesLoop h filter files output = .ok rows := by
  induction files with
  | nil => intro output; exact ⟨output, rfl⟩
  | cons file files ih =>
    intro output
    have ih2 := ih (fun f hf => hall f (List.mem_cons_of_mem _ hf))
    unfold getProcessesLoop
    by_cases hp : (file.isDir && isNumeric file.name) = true
    · have hp2 := hp
      simp only [Bool.and_eq_true] at hp2
      obtain ⟨r, he⟩ := hall file (List.mem_cons_self _ _) hp2.1 hp2.2
      simp only [hp, if_true, bind, Except.bind, he]
      cases r with
      | none => exact ih2 output
      | some row => exact ih2 (output ++ [row])
    · simp only [hp]
      exact ih2 output

theorem getProcessesLoop_panics {h : Host} {filter : GoString} (files : List DirEntry)
    (file : DirEntry) (hmem : file ∈ files) (hdir : file.isDir = true)
    (hnum : isNumeric file.name = true) (p : Panic)
    (hp : getProcessesEntry h filter file.name = .error p) :
    ∀ output : List Row, ∃ q, getProcessesLoop h filter files output = .error q := by
  intro output
  cases hres : getProcessesLoop h filter files output with
  | error q => exact ⟨q, rfl⟩
  | ok rows =>
    exfalso
    revert output rows
    induction files with
    | nil => cases hmem
    | cons f files ih =>
      intro output rows hres
      unfold getProcessesLoop at hres
      by_cases hf : (f.isDir && isNumeric f.name) = true
      · simp only [hf, if_true, bind, Except.bind] at hres
        cases he : getProcessesEntry h filter f.name with
        | error p2 => simp [he] at hres
        | ok r =>
          rcases List.mem_cons.mp hmem with heq | hin
          · subst heq
            rw [hp] at he
            cases he
          · simp only [he] at hres
            cases r with
            | none => exact ih hin _ _ hres
            | some row => exact ih hin _ _ hres
      · rcases List.mem_cons.mp hmem with heq | hin
        · subst heq
          simp [hdir, hnum] at hf
        · simp only [hf] at hres
          exact ih hin _ _ hres
theorem keptRow_some {h : Host} {filter : GoString} {file : DirEntry} {row : Row}
    (hk : keptRow h filter file = some row) :
    file.isDir = true ∧ isNumeric file.name = true ∧
      getProcessesEntry h filter file.name = .ok (some row) := by
  unfold keptRow at hk
  by_cases hp : (file.isDir && isNumeric file.name) = true
  · simp only [hp, if_true] at hk
    have hp2 := hp
    simp only [Bool.and_eq_true] at hp2
    refine ⟨hp2.1, hp2.2, ?_⟩
    cases he : getProcessesEntry h filter file.name with
    | error p => simp [he] at hk
    | ok r =>
      simp only [he] at hk
      rw [hk]
  · simp [hp] at hk

theorem entry_row_pid {h : Host} {filter pid : GoString} {row : Row}
    (he : getProcessesEntry h filter pid = .ok (some row)) : row.pid = pid := by
  obtain ⟨hfs, hms, u, c, _, _, hr⟩ := getProcessesEntry_inv he
  split at hr
  · cases hr
    rfl
  · cases hr

theorem pids_sublist (h : Host) (filter : GoString) (files : List DirEntry) :
    ((files.filterMap (keptRow h filter)).map Row.pid).Sublist (files.map DirEntry.name) := by
  induction files with
  | nil => simp
  | cons file files ih =>
    cases hk : keptRow h filter file with
    | none =>
      rw [List.filterMap_cons_none hk, List.map_cons]
      exact List.Sublist.cons _ ih
    | some row =>
      rw [List.filterMap_cons_some hk, List.map_cons, List.map_cons,
        entry_row_pid (keptRow_some hk).2.2]
      exact List.Sublist.cons₂ _ ih

theorem entries_ok_of_ok {h : Host} {filter : GoString} {rows : List Row}
    (hok : getProcesses h filter = .ok rows) (file : DirEntry) (hmem : file ∈ h.procDir)
    (hdir : file.isDir = true) (hnum : isNumeric file.name = true) :
    ∃ r, getProcessesEntry h filter file.name = .ok r := by
  cases he : getProcessesEntry h filter file.name with
  | ok r => exact ⟨r, rfl⟩
  | error p =>
    obtain ⟨q, hq⟩ := getProcessesLoop_panics h.procDir file hmem hdir hnum p he []
    unfold getProcesses at hok
    rw [hq] at hok
    cases hok

theorem getUserForPid_eq (h : Host) (pid : GoString) :
    getUserForPid h pid =
      Except.bind (index (Split 10 (statusOf h pid)) 7) fun uidStr =>
        Except.bind (index (Split 9 uidStr) 1) fun token =>
          match h.lookupId (Itoa (Atoi token)) with
          | some username => .ok username
          | none => .error Panic.nilDereference := rfl

theorem usageBarCells_eq (n : Int) :
    usageBarCells n =
      List.replicate (max 0 (min 20 n)).toNat 61 ++
        List.replicate (20 - (max 0 (min 20 n)).toNat) 32 := by
  apply List.ext_getElem
  · simp [usageBarCells]
  · intro i h1 h2
    simp only [usageBarCells, List.length_map, List.length_range] at h1
    simp only [usageBarCells, List.getElem_map, List.getElem_range, List.getElem_append,
      List.length_replicate, List.getElem_replicate]
    split_ifs <;> omega

theorem powInt_pos (b : Nat) (hb : 0 < b) (e : Int) : 0 < powInt b e := by
  unfold powInt
  split <;> positivity

theorem roundMag_nonneg (q : ℚ) : 0 ≤ roundMag q := by
  unfold roundMag
  split
  · exact le_refl _
  · exact mul_nonneg (Nat.cast_nonneg _) (powInt_pos 2 (by norm_num) _).le

theorem roundF_fin {neg s : Bool} {q m : ℚ} (h : roundF neg q = F64.fin s m) :
    s = neg ∧ m = roundMag q ∧ roundMag q < powInt 2 1024 := by
  unfold roundF at h
  split at h
  · cases h
  · rename_i hlt
    cases h
    exact ⟨rfl, rfl, not_le.mp hlt⟩

theorem mul_fin_nonneg {x y : F64} {s : Bool} {m : ℚ} (h : x.mul y = F64.fin s m) : 0 ≤ m := by
  cases x <;> cases y <;> simp only [F64.mul] at h
  all_goals first
    | cases h
    | (split at h <;> cases h)
    | (rw [(roundF_fin h).2.1]; exact roundMag_nonneg _)

theorem powInt_two_63 : powInt 2 63 = 2 ^ 63 := by
  decide!

theorem toInt_clamp (undef : Int) (neg : Bool) (q : ℚ) (h0 : 0 ≤ q) (hq : q < 2 ^ 63) :
    max 0 (min 20 (F64.toInt undef (F64.fin neg q))) =
      max 0 (min 20 ⌊F64.toRat (F64.fin neg q)⌋) := by
  have hfl : ((⌊q⌋₊ : ℕ) : ℤ) = ⌊q⌋ := Int.natCast_floor_eq_floor h0
  have hfl0 : 0 ≤ ⌊q⌋ := Int.floor_nonneg.mpr h0
  simp only [F64.toInt, F64.toRat, powInt_two_63, hq, if_true]
  cases neg
  · simp [hfl]
  · have hneg : ⌊-q⌋ ≤ 0 := by
      have : ⌊-q⌋ ≤ ⌊(0 : ℚ)⌋ := Int.floor_le_floor (by linarith)
      simpa using this
    simp only [if_true, hfl]
    omega
/-! ## Lemmas on rounding -/

theorem powInt_eq_zpow (b : Nat) (e : Int) : powInt b e = (b : ℚ) ^ e := by
  unfold powInt
  split
  · rename_i h
    obtain ⟨n, rfl⟩ := Int.eq_ofNat_of_zero_le h
    simp
  · rename_i h
    have hneg : 0 ≤ -e := by omega
    obtain ⟨n, hn⟩ := Int.eq_ofNat_of_zero_le hneg
    have he : e = -(n : ℤ) := by omega
    subst he
    simp

theorem halvings_spec : ∀ (fuel n : Nat), 1 ≤ n → n ≤ fuel →
    2 ^ halvings fuel n ≤ n ∧ n < 2 ^ (halvings fuel n + 1) := by
  intro fuel
  induction fuel with
  | zero => intro n h1 h2; omega
  | succ fuel ih =>
    intro n h1 h2
    unfold halvings
    by_cases hn : n < 2
    · simp only [hn, if_true]
      constructor <;> simp <;> omega
    · simp only [hn, if_false]
      obtain ⟨hlo, hhi⟩ := ih (n / 2) (by omega) (by omega)
      have e1 : 2 ^ (halvings fuel (n / 2) + 1) = 2 * 2 ^ halvings fuel (n / 2) := by
        rw [pow_succ]; ring
      have e2 : 2 ^ (halvings fuel (n / 2) + 1 + 1) = 2 * 2 ^ (halvings fuel (n / 2) + 1) := by
        rw [pow_succ]; ring
      rw [e2]
      rw [e1] at hhi ⊢
      constructor <;> omega

theorem floorLog2_spec (q : ℚ) (hq : 0 < q) :
    (2 : ℚ) ^ floorLog2 q ≤ q ∧ q < (2 : ℚ) ^ (floorLog2 q + 1) := by
  have hnum : 0 < q.num := Rat.num_pos.mpr hq
  have hden : 0 < q.den := q.den_pos
  set n := q.num.toNat with hn
  have hn1 : 1 ≤ n := by omega
  have hnq : (n : ℤ) = q.num := by omega
  obtain ⟨ha1, ha2⟩ := halvings_spec n n hn1 (le_refl _)
  obtain ⟨hb1, hb2⟩ := halvings_spec q.den q.den hden (le_refl _)
  set a := halvings n n with ha
  set b := halvings q.den q.den with hb
  have hqeq : q = (n : ℚ) / (q.den : ℚ) := by
    have h1 : ((n : ℤ) : ℚ) = (q.num : ℚ) := by rw [hnq]
    have h2 : (n : ℚ) = (q.num : ℚ) := by exact_mod_cast h1
    rw [h2]
    exact (Rat.num_div_den q).symm
  have hdq : (0 : ℚ) < (q.den : ℚ) := by exact_mod_cast hden
  have ha1q : (2 : ℚ) ^ a ≤ (n : ℚ) := by exact_mod_cast ha1
  have ha2q : (n : ℚ) < (2 : ℚ) ^ (a + 1) := by exact_mod_cast ha2
  have hb1q : (2 : ℚ) ^ b ≤ (q.den : ℚ) := by exact_mod_cast hb1
  have hb2q : (q.den : ℚ) < (2 : ℚ) ^ (b + 1) := by exact_mod_cast hb2
  have hlow : (2 : ℚ) ^ ((a : ℤ) - (b : ℤ) - 1) < q := by
    have e : (2 : ℚ) ^ ((a : ℤ) - (b : ℤ) - 1) = (2 : ℚ) ^ a / (2 : ℚ) ^ (b + 1) := by
      rw [show (a : ℤ) - (b : ℤ) - 1 = (a : ℤ) - ((b + 1 : ℕ) : ℤ) by push_cast; ring]
      rw [zpow_sub₀ (by norm_num), zpow_natCast, zpow_natCast]
    rw [e, hqeq, div_lt_div_iff₀ (by positivity) hdq]
    calc (2 : ℚ) ^ a * (q.den : ℚ) < (2 : ℚ) ^ a * (2 : ℚ) ^ (b + 1) := by
          apply mul_lt_mul_of_pos_left hb2q (by positivity)
      _ ≤ (n : ℚ) * (2 : ℚ) ^ (b + 1) := by
          apply mul_le_mul_of_nonneg_right ha1q (by positivity)
  have hhigh : q < (2 : ℚ) ^ ((a : ℤ) - (b : ℤ) + 1) := by
    have e : (2 : ℚ) ^ ((a : ℤ) - (b : ℤ) + 1) = (2 : ℚ) ^ (a + 1) / (2 : ℚ) ^ b := by
      rw [show (a : ℤ) - (b : ℤ) + 1 = ((a + 1 : ℕ) : ℤ) - (b : ℤ) by push_cast; ring]
      rw [zpow_sub₀ (by norm_num), zpow_natCast, zpow_natCast]
    rw [e, hqeq, div_lt_div_iff₀ hdq (by positivity)]
    calc (n : ℚ) * (2 : ℚ) ^ b < (2 : ℚ) ^ (a + 1) * (2 : ℚ) ^ b := by
          apply mul_lt_mul_of_pos_right ha2q (by positivity)
      _ ≤ (2 : ℚ) ^ (a + 1) * (q.den : ℚ) := by
          apply mul_le_mul_of_nonneg_left hb1q (by positivity)
  have hfl : floorLog2 q =
      if (2 : ℚ) ^ ((a : ℤ) - (b : ℤ)) ≤ q then (a : ℤ) - (b : ℤ) else (a : ℤ) - (b : ℤ) - 1 := by
    unfold floorLog2
    simp only [powInt_eq_zpow]
    rfl
  rw [hfl]
  split
  · rename_i hle
    exact ⟨hle, hhigh⟩
  · rename_i hle
    refine ⟨hlow.le, ?_⟩
    rw [show (a : ℤ) - (b : ℤ) - 1 + 1 = (a : ℤ) - (b : ℤ) by ring]
    exact not_le.mp hle

theorem roundHalfEven_le (x : ℚ) (N : ℕ) (h : x ≤ N) : roundHalfEven x ≤ N := by
  have hf : ⌊x⌋₊ ≤ N := Nat.floor_le_of_le h
  have hsucc : ¬ (x - ⌊x⌋₊ < 1 / 2) → ⌊x⌋₊ + 1 ≤ N := by
    intro hge
    have hlt : ((⌊x⌋₊ : ℕ) : ℚ) < (N : ℚ) := by
      have : (1 : ℚ) / 2 ≤ x - ⌊x⌋₊ := not_lt.mp hge
      linarith
    have : ⌊x⌋₊ < N := by exact_mod_cast hlt
    omega
  unfold roundHalfEven
  split
  · exact hf
  · rename_i h1
    split
    · exact hsucc h1
    · split
      · exact hf
      · exact hsucc h1

theorem le_roundHalfEven (x : ℚ) (N : ℕ) (h : (N : ℚ) ≤ x) : N ≤ roundHalfEven x := by
  have hf : N ≤ ⌊x⌋₊ := Nat.le_floor h
  unfold roundHalfEven
  split_ifs <;> omega
theorem gridExp_ge (q : ℚ) : -1074 ≤ gridExp q := le_max_right _ _

theorem gridExp_le_of_le (q : ℚ) (hq : 0 < q) (e : ℤ) (he : -1074 ≤ e)
    (hlt : q < (2 : ℚ) ^ (e + 53)) : gridExp q ≤ e := by
  unfold gridExp
  apply max_le _ he
  have h1 := (floorLog2_spec q hq).1
  have h2 : (2 : ℚ) ^ floorLog2 q < (2 : ℚ) ^ (e + 53) := lt_of_le_of_lt h1 hlt
  have h3 := (zpow_lt_zpow_iff_right₀ (by norm_num : (1 : ℚ) < 2)).mp h2
  omega

theorem roundMag_eq (q : ℚ) (hq : 0 < q) :
    roundMag q = (roundHalfEven (q / (2 : ℚ) ^ gridExp q) : ℚ) * (2 : ℚ) ^ gridExp q := by
  unfold roundMag
  rw [if_neg hq.ne', powInt_eq_zpow]
  norm_num

theorem roundMag_zero : roundMag 0 = 0 := by
  unfold roundMag
  simp

theorem roundMag_le_of_grid (q y : ℚ) (hq : 0 < q) (hy : q ≤ y) (N : ℕ)
    (hN : y = (N : ℚ) * (2 : ℚ) ^ gridExp q) : roundMag q ≤ y := by
  have hp : (0 : ℚ) < (2 : ℚ) ^ gridExp q := zpow_pos (by norm_num) _
  rw [roundMag_eq q hq, hN]
  apply mul_le_mul_of_nonneg_right _ hp.le
  have : roundHalfEven (q / (2 : ℚ) ^ gridExp q) ≤ N := by
    apply roundHalfEven_le
    rw [div_le_iff₀ hp, ← hN]
    exact hy
  exact_mod_cast this

theorem onGrid_multiple (q y : ℚ) (hq : 0 < q) (hqy : q ≤ y) (hy : OnGrid y) :
    ∃ N : ℕ, y = (N : ℚ) * (2 : ℚ) ^ gridExp q := by
  obtain ⟨m, e, hm, he, rfl⟩ := hy
  have hp : (0 : ℚ) < (2 : ℚ) ^ e := zpow_pos (by norm_num) _
  have hlt : q < (2 : ℚ) ^ (e + 53) := by
    have hmq : (m : ℚ) < (2 : ℚ) ^ (53 : ℕ) := by exact_mod_cast hm
    calc q ≤ (m : ℚ) * (2 : ℚ) ^ e := hqy
      _ < (2 : ℚ) ^ (53 : ℕ) * (2 : ℚ) ^ e := mul_lt_mul_of_pos_right hmq hp
      _ = (2 : ℚ) ^ (e + 53) := by
          rw [← zpow_natCast, ← zpow_add₀ (by norm_num)]
          congr 1
          push_cast
          ring
  have hg := gridExp_le_of_le q hq e he hlt
  obtain ⟨k, hk⟩ := Int.eq_ofNat_of_zero_le (show 0 ≤ e - gridExp q by omega)
  refine ⟨m * 2 ^ k, ?_⟩
  have he2 : e = (k : ℤ) + gridExp q := by omega
  rw [he2, zpow_add₀ (by norm_num), zpow_natCast]
  push_cast
  ring

theorem roundMag_le_of_onGrid (q y : ℚ) (hq : 0 < q) (hqy : q ≤ y) (hy : OnGrid y) :
    roundMag q ≤ y := by
  obtain ⟨N, hN⟩ := onGrid_multiple q y hq hqy hy
  exact roundMag_le_of_grid q y hq hqy N hN

theorem roundMag_onGrid (q : ℚ) (hq : 0 ≤ q) : OnGrid (roundMag q) := by
  rcases hq.eq_or_lt with h0 | hpos
  · rw [← h0, roundMag_zero]
    exact ⟨0, 0, by norm_num, by norm_num, by simp⟩
  · have hp : (0 : ℚ) < (2 : ℚ) ^ gridExp q := zpow_pos (by norm_num) _
    have hg : floorLog2 q - 52 ≤ gridExp q := le_max_left _ _
    have hlt : q < (2 : ℚ) ^ (gridExp q + 53) := by
      apply lt_of_lt_of_le (floorLog2_spec q hpos).2
      apply zpow_le_zpow_right₀ (by norm_num)
      omega
    have hR : roundHalfEven (q / (2 : ℚ) ^ gridExp q) ≤ 2 ^ 53 := by
      apply roundHalfEven_le
      rw [div_le_iff₀ hp]
      have e : (((2 ^ 53 : ℕ) : ℚ)) * (2 : ℚ) ^ gridExp q = (2 : ℚ) ^ (gridExp q + 53) := by
        rw [zpow_add₀ (by norm_num : (2 : ℚ) ≠ 0) (gridExp q) 53, mul_comm]
        norm_num
      rw [e]
      exact hlt.le
    rw [roundMag_eq q hpos]
    rcases hR.eq_or_lt with heq | hlt2
    · refine ⟨2 ^ 52, gridExp q + 1, by norm_num, by have := gridExp_ge q; omega, ?_⟩
      rw [heq, zpow_add₀ (by norm_num)]
      push_cast
      ring
    · exact ⟨_, gridExp q, hlt2, gridExp_ge q, rfl⟩

theorem roundMag_pos (q : ℚ) (hq : (2 : ℚ) ^ (-1074 : ℤ) ≤ q) : 0 < roundMag q := by
  have hpos : 0 < q := lt_of_lt_of_le (zpow_pos (by norm_num) _) hq
  have hp : (0 : ℚ) < (2 : ℚ) ^ gridExp q := zpow_pos (by norm_num) _
  have hle : (2 : ℚ) ^ gridExp q ≤ q := by
    unfold gridExp
    rcases max_cases (floorLog2 q - 52) (-1074) with ⟨h1, _⟩ | ⟨h1, _⟩
    · rw [h1]
      apply le_trans _ (floorLog2_spec q hpos).1
      apply zpow_le_zpow_right₀ (by norm_num)
      omega
    · rw [h1]
      exact hq
  have h1 : 1 ≤ roundHalfEven (q / (2 : ℚ) ^ gridExp q) := by
    apply le_roundHalfEven
    rw [le_div_iff₀ hp]
    simpa using hle
  rw [roundMag_eq q hpos]
  apply mul_pos _ hp
  exact_mod_cast h1
theorem powInt_two_1024 : powInt 2 1024 = 2 ^ 1024 := by
  rw [powInt_eq_zpow]
  norm_num

theorem onGrid_zero : OnGrid 0 := ⟨0, 0, by norm_num, by norm_num, by simp⟩

theorem onGrid_one : OnGrid 1 := ⟨1, 0, by norm_num, by norm_num, by simp⟩

theorem roundF_wf (neg : Bool) (q : ℚ) (hq : 0 ≤ q) : (roundF neg q).WF := by
  unfold roundF
  split
  · trivial
  · rename_i h
    rw [powInt_two_1024] at h
    exact ⟨roundMag_onGrid q hq, not_le.mp h⟩

theorem roundF_of_le (neg : Bool) (q y : ℚ) (hq : 0 ≤ q) (hqy : q ≤ y) (hy : OnGrid y)
    (hy2 : y < 2 ^ 1024) :
    roundF neg q = F64.fin neg (roundMag q) ∧ 0 ≤ roundMag q ∧ roundMag q ≤ y := by
  have hle : roundMag q ≤ y := by
    rcases hq.eq_or_lt with h0 | hpos
    · rw [← h0, roundMag_zero]
      rw [← h0] at hqy
      exact hqy
    · exact roundMag_le_of_onGrid q y hpos hqy hy
  refine ⟨?_, roundMag_nonneg q, hle⟩
  unfold roundF
  rw [if_neg]
  rw [powInt_two_1024]
  exact not_le.mpr (lt_of_le_of_lt hle hy2)

theorem add_wf (x y : F64) : (x.add y).WF := by
  cases x <;> cases y <;> simp only [F64.add]
  all_goals first
    | trivial
    | (split <;> trivial)
    | skip
  split
  · exact ⟨onGrid_zero, by norm_num⟩
  · exact roundF_wf _ _ (abs_nonneg _)

theorem special_not_fin {s : GoString} {v : F64} {n : Nat} (h : special s = some (v, n)) :
    v.isFinite = false := by
  unfold special at h
  split at h
  · cases h
  · split_ifs at h <;> cases h <;> rfl

theorem ParseFloat_wf (s : GoString) : (ParseFloat s).1.WF := by
  have hz : (F64.ofNat 0).WF := ⟨by simpa using onGrid_zero, by norm_num⟩
  unfold ParseFloat
  split
  · rename_i v n hsp
    split
    · have := special_not_fin hsp
      cases v <;> trivial
    · exact hz
  · split
    · exact hz
    · split
      · exact hz
      · apply roundF_wf
        apply mul_nonneg (Nat.cast_nonneg _)
        exact (powInt_pos _ (by split <;> norm_num) _).le

theorem foldl_add_wf (vs : List F64) (z : F64) (hz : z.WF) : (vs.foldl F64.add z).WF := by
  induction vs generalizing z with
  | nil => exact hz
  | cons v vs ih => exact ih _ (add_wf z v)

theorem roundF_one (neg : Bool) : roundF neg 1 = F64.fin neg 1 := by
  cases neg <;> decide!

theorem usage_bounds (t f : ℚ) (ht : OnGrid t) (ht2 : t < 2 ^ 1024) (hf0 : 0 ≤ f) (hle : f ≤ t)
    (hpos : 0 < t) :
    ∃ u w : ℚ, (F64.fin false t).sub (F64.fin false f) = F64.fin false u ∧
      (F64.fin false u).div (F64.fin false t) = F64.fin false w ∧
      0 ≤ u ∧ u ≤ t ∧ 0 ≤ w ∧ w ≤ 1 := by
  have hsub : ∃ u, (F64.fin false t).sub (F64.fin false f) = F64.fin false u ∧ 0 ≤ u ∧ u ≤ t := by
    simp only [F64.sub, F64.neg, F64.add, F64.toRat, Bool.not_false, if_true, Bool.false_eq_true,
      if_false, Bool.false_and]
    by_cases h0 : t + -f = 0
    · rw [if_pos h0]
      exact ⟨0, rfl, le_refl _, hpos.le⟩
    · rw [if_neg h0]
      have hx : 0 < t + -f := lt_of_le_of_ne (by linarith) (Ne.symm h0)
      unfold F64.ofRat
      rw [abs_of_pos hx, decide_eq_false (not_lt.mpr hx.le)]
      obtain ⟨h1, h2, h3⟩ := roundF_of_le false (t + -f) t hx.le (by linarith) ht ht2
      exact ⟨_, h1, h2, h3⟩
  obtain ⟨u, hu, hu0, hut⟩ := hsub
  have hdiv : ∃ w, (F64.fin false u).div (F64.fin false t) = F64.fin false w ∧ 0 ≤ w ∧ w ≤ 1 := by
    simp only [F64.div, if_neg hpos.ne', bne_self_eq_false]
    have hq0 : 0 ≤ u / t := div_nonneg hu0 hpos.le
    have hq1 : u / t ≤ 1 := (div_le_one hpos).mpr hut
    obtain ⟨h1, h2, h3⟩ := roundF_of_le false (u / t) 1 hq0 hq1 onGrid_one (by norm_num)
    exact ⟨_, h1, h2, h3⟩
  obtain ⟨w, hw, hw0, hw1⟩ := hdiv
  exact ⟨u, w, hu, hw, hu0, hut, hw0, hw1⟩
theorem Split_ne_nil (sep : Nat) (s : GoString) : Split sep s ≠ [] := by
  cases s with
  | nil => simp [Split]
  | cons c rest =>
    unfold Split
    split
    · simp
    · split <;> simp

theorem idleFrom_cons (i : Nat) (v : GoString) (rest : List GoString) (acc : F64) :
    idleFrom i (v :: rest) acc = idleFrom (i + 1) rest (if i = 3 then parseValue v else acc) := by
  unfold idleFrom
  by_cases h3 : i = 3
  · subst h3
    simp
  · by_cases hlt : i < 3
    · have e : 3 - i = (3 - (i + 1)) + 1 := by omega
      rw [if_pos (by omega), if_pos (by omega), e, List.getElem?_cons_succ, if_neg h3]
    · rw [if_neg (by omega), if_neg (by omega), if_neg h3]

theorem cpuLoop_eq (fs1 : List GoString) :
    ∀ (fs2 pre : List GoString) (i : Nat) (acc : CpuSums), pre.length = i →
      fs1.length = fs2.length →
      cpuLoop (pre ++ fs2) fs1 i acc = .ok
        { total1 := (fs1.map parseValue).foldl F64.add acc.total1,
          total2 := (fs2.map parseValue).foldl F64.add acc.total2,
          idle1 := idleFrom i fs1 acc.idle1,
          idle2 := idleFrom i fs2 acc.idle2 } := by
  induction fs1 with
  | nil =>
    intro fs2 pre i acc _ hlen
    have h2 : fs2 = [] := List.length_eq_zero.mp (by simpa using hlen.symm)
    subst h2
    simp [cpuLoop, idleFrom, pure, Except.pure]
  | cons v rest ih =>
    intro fs2 pre i acc hpre hlen
    cases fs2 with
    | nil => simp at hlen
    | cons v2 rest2 =>
      have hidx : index (pre ++ v2 :: rest2) i = .ok v2 := by
        rw [index_ok_iff, ← hpre, List.getElem?_append_right (le_refl _)]
        simp
      have hstep := ih rest2 (pre ++ [v2]) (i + 1)
        { total1 := acc.total1.add (parseValue v), total2 := acc.total2.add (parseValue v2),
          idle1 := if i = 3 then parseValue v else acc.idle1,
          idle2 := if i = 3 then parseValue v2 else acc.idle2 }
        (by simp [hpre]) (by simpa using hlen)
      rw [List.append_assoc] at hstep
      simp only [List.singleton_append] at hstep
      unfold cpuLoop
      simp only [hidx, bind, Except.bind]
      unfold parseValue at hstep
      rw [hstep]
      simp only [List.map_cons, List.foldl_cons, idleFrom_cons]
      rfl

theorem idleFrom_zero (fs : List GoString) : idleFrom 0 fs (F64.ofNat 0) = idleOf fs := by
  unfold idleFrom idleOf
  simp

theorem getCPUUsage_eq (c1 c2 label1 label2 : GoString) (fs1 fs2 : List GoString)
    (h1 : Fields (firstLine c1) = label1 :: fs1) (h2 : Fields (firstLine c2) = label2 :: fs2)
    (hlen : fs1.length = fs2.length) :
    getCPUUsage c1 c2 = .ok
      ((F64.ofNat 1).sub (((idleOf fs2).sub (idleOf fs1)).div ((totalOf fs2).sub (totalOf fs1)))) := by
  have hl : ∀ c, index (Split 10 c) 0 = .ok (firstLine c) := by
    intro c
    unfold firstLine
    cases hs : Split 10 c with
    | nil => exact absurd hs (Split_ne_nil 10 c)
    | cons l ls => simp [index, pure, Except.pure]
  unfold getCPUUsage
  simp only [hl, bind, Except.bind, h1, h2, sliceFrom1, pure, Except.pure]
  have hloop := cpuLoop_eq fs1 fs2 [] 0
    { total1 := F64.ofNat 0, total2 := F64.ofNat 0, idle1 := F64.ofNat 0, idle2 := F64.ofNat 0 }
    rfl hlen
  simp only [List.nil_append] at hloop
  rw [hloop]
  simp only [idleFrom_zero]
  rfl
theorem onGrid_int_multiple {m : ℚ} (hm : OnGrid m) (s : Bool) :
    ∃ z : ℤ, F64.toRat (F64.fin s m) = (z : ℚ) * (2 : ℚ) ^ (-1074 : ℤ) := by
  obtain ⟨k, e, -, he, rfl⟩ := hm
  obtain ⟨j, hj⟩ := Int.eq_ofNat_of_zero_le (show 0 ≤ e + 1074 by omega)
  have he2 : e = (j : ℤ) + (-1074) := by omega
  have hpow : (2 : ℚ) ^ e = (2 : ℚ) ^ j * (2 : ℚ) ^ (-1074 : ℤ) := by
    rw [he2, zpow_add₀ (by norm_num), zpow_natCast]
  cases s
  · refine ⟨(k : ℤ) * 2 ^ j, ?_⟩
    simp only [F64.toRat, Bool.false_eq_true, if_false]
    rw [hpow]
    push_cast
    ring
  · refine ⟨-((k : ℤ) * 2 ^ j), ?_⟩
    simp only [F64.toRat, if_true]
    rw [hpow]
    push_cast
    ring

theorem sub_fin_pos {s1 s2 : Bool} {m1 m2 : ℚ} (h1 : OnGrid m1) (h2 : OnGrid m2)
    (hlt : F64.toRat (F64.fin s1 m1) < F64.toRat (F64.fin s2 m2))
    (hfin : ((F64.fin s2 m2).sub (F64.fin s1 m1)).isFinite = true) :
    ∃ r : ℚ, (F64.fin s2 m2).sub (F64.fin s1 m1) = F64.fin false r ∧ 0 < r := by
  obtain ⟨z1, hz1⟩ := onGrid_int_multiple h1 s1
  obtain ⟨z2, hz2⟩ := onGrid_int_multiple h2 s2
  have hneg : F64.toRat (F64.fin (!s1) m1) = -F64.toRat (F64.fin s1 m1) := by
    cases s1 <;> simp [F64.toRat]
  have hp : (0 : ℚ) < (2 : ℚ) ^ (-1074 : ℤ) := zpow_pos (by norm_num) _
  have hx : (2 : ℚ) ^ (-1074 : ℤ) ≤
      F64.toRat (F64.fin s2 m2) + F64.toRat (F64.fin (!s1) m1) := by
    rw [hneg, hz1, hz2]
    rw [hz1, hz2] at hlt
    have hz : z1 < z2 := by
      have := (mul_lt_mul_right hp).mp hlt
      exact_mod_cast this
    have hz' : (1 : ℚ) ≤ (z2 : ℚ) - (z1 : ℚ) := by
      have : (1 : ℤ) ≤ z2 - z1 := by omega
      exact_mod_cast this
    nlinarith
  have hxpos : 0 < F64.toRat (F64.fin s2 m2) + F64.toRat (F64.fin (!s1) m1) := lt_of_lt_of_le hp hx
  have hsub : (F64.fin s2 m2).sub (F64.fin s1 m1) =
      roundF false (F64.toRat (F64.fin s2 m2) + F64.toRat (F64.fin (!s1) m1)) := by
    simp only [F64.sub, F64.neg, F64.add]
    rw [if_neg hxpos.ne']
    unfold F64.ofRat
    rw [abs_of_pos hxpos, decide_eq_false (not_lt.mpr hxpos.le)]
  rw [hsub] at hfin ⊢
  unfold roundF at hfin ⊢
  split
  · rename_i hov
    rw [if_pos hov] at hfin
    cases hfin
  · exact ⟨_, rfl, roundMag_pos _ hx⟩

theorem usage_zero_of_equal_delta (t1 t2 : F64) (hw1 : t1.WF) (hw2 : t2.WF)
    (hlt : F64.lt t1 t2 = true) (hfin : (t2.sub t1).isFinite = true) :
    (F64.ofNat 1).sub ((t2.sub t1).div (t2.sub t1)) = F64.fin false 0 := by
  cases t1 with
  | nan => cases t2 <;> simp [F64.lt] at hlt
  | inf s1 =>
    cases t2 with
    | nan => simp [F64.lt] at hlt
    | inf s2 =>
      simp only [F64.sub, F64.neg, F64.add] at hfin
      split at hfin <;> cases hfin
    | fin s2 m2 => simp [F64.sub, F64.neg, F64.add, F64.isFinite] at hfin
  | fin s1 m1 =>
    cases t2 with
    | nan => simp [F64.lt] at hlt
    | inf s2 => simp [F64.sub, F64.neg, F64.add, F64.isFinite] at hfin
    | fin s2 m2 =>
      have hlt2 : F64.toRat (F64.fin s1 m1) < F64.toRat (F64.fin s2 m2) := by
        simpa [F64.lt] using hlt
      obtain ⟨r, hr, hrpos⟩ := sub_fin_pos hw1.1 hw2.1 hlt2 hfin
      rw [hr]
      have hdiv : (F64.fin false r).div (F64.fin false r) = F64.fin false 1 := by
        simp only [F64.div, if_neg hrpos.ne', bne_self_eq_false, div_self hrpos.ne']
        exact roundF_one false
      rw [hdiv]
      decide!
/-! ## Lemmas on `ParseFloat` for strings of decimal digits -/

theorem lower_digit {c : Nat} (hc : IsDigit c) : lower c = c := by
  obtain ⟨h1, h2⟩ := hc
  unfold lower
  interval_cases c <;> rfl

theorem readDigits_digits (ds : GoString) (hds : ∀ c ∈ ds, IsDigit c) :
    ∀ st : Digits, st.sawdot = false →
      ∃ st2 : Digits, readDigits false ds st = (st2, []) ∧ st2.sawdot = false ∧
        st2.underscores = st.underscores ∧
        (st.sawdigits = true ∨ ds ≠ [] → st2.sawdigits = true) ∧
        st2.mant + 1 ≤ (st.mant + 1) * 10 ^ ds.length := by
  induction ds with
  | nil =>
    intro st hdot
    exact ⟨st, rfl, hdot, rfl, fun h => h.elim id (fun h => absurd rfl h), by simp⟩
  | cons c rest ih =>
    intro st hdot
    have hc : IsDigit c := hds c (List.mem_cons_self _ _)
    have hrest : ∀ c ∈ rest, IsDigit c := fun d hd => hds d (List.mem_cons_of_mem _ hd)
    obtain ⟨h1, h2⟩ := hc
    have hpow : (10 : ℕ) ^ (c :: rest).length = 10 * 10 ^ rest.length := by
      rw [List.length_cons, pow_succ]; ring
    unfold readDigits
    rw [if_neg (by omega), if_neg (by omega), if_pos ⟨h1, h2⟩]
    by_cases hz : c = 48 ∧ st.nd = 0
    · rw [if_pos hz]
      obtain ⟨st2, e1, e2, e3, e4, e5⟩ := ih hrest { st with sawdigits := true, dp := st.dp - 1 } hdot
      refine ⟨st2, e1, e2, e3, fun _ => ?_, ?_⟩
      · exact e4 (Or.inl rfl)
      · rw [hpow]
        simp only at e5
        nlinarith [Nat.one_le_pow rest.length 10 (by norm_num)]
    · rw [if_neg hz]
      obtain ⟨st2, e1, e2, e3, e4, e5⟩ := ih hrest
        { st with sawdigits := true, nd := st.nd + 1,
                  mant := st.mant * (if false = true then 16 else 10) + (c - 48) } hdot
      refine ⟨st2, e1, e2, e3, fun _ => ?_, ?_⟩
      · exact e4 (Or.inl rfl)
      · rw [hpow]
        simp only [Bool.false_eq_true, if_false] at e5
        have hb : st.mant * 10 + (c - 48) + 1 ≤ (st.mant + 1) * 10 := by omega
        calc st2.mant + 1 ≤ (st.mant * 10 + (c - 48) + 1) * 10 ^ rest.length := e5
          _ ≤ ((st.mant + 1) * 10) * 10 ^ rest.length := Nat.mul_le_mul_right _ hb
          _ = (st.mant + 1) * (10 * 10 ^ rest.length) := by ring

theorem special_digit (c : Nat) (rest : GoString) (hc : IsDigit c) : special (c :: rest) = none := by
  obtain ⟨h1, h2⟩ := hc
  simp only [special, if_neg (show ¬ (c = 43 ∨ c = 45) by omega),
    if_neg (show ¬ (c = 105 ∨ c = 73) by omega), if_neg (show ¬ (c = 110 ∨ c = 78) by omega)]

theorem readFloat_digits (c : Nat) (rest : GoString) (hds : ∀ d ∈ c :: rest, IsDigit d) :
    ∃ r : ReadFloat, readFloat (c :: rest) = some r ∧ r.rest = [] ∧ r.neg = false ∧
      r.hex = false ∧ r.exp = 0 ∧ r.mant + 1 ≤ 10 ^ (c :: rest).length := by
  obtain ⟨st2, e1, e2, e3, e4, e5⟩ := readDigits_digits (c :: rest) hds {} rfl
  have hc : IsDigit c := hds c (List.mem_cons_self _ _)
  have hbody : (if c = 43 ∨ c = 45 then rest else c :: rest) = c :: rest := by
    rw [if_neg]
    obtain ⟨h1, h2⟩ := hc
    omega
  have hexp : readFloatExp (c :: rest) (decide (c = 45)) false st2 [] =
      some { mant := st2.mant, exp := 0, neg := decide (c = 45), hex := false, rest := [] } := by
    unfold readFloatExp
    simp [e2, e3]
  have hneg : decide (c = 45) = false := by
    obtain ⟨h1, h2⟩ := hc
    simp
    omega
  have hmain : readFloat (c :: rest) =
      some { mant := st2.mant, exp := 0, neg := decide (c = 45), hex := false, rest := [] } := by
    unfold readFloat
    simp only [hbody]
    split
    · rename_i x y more heq
      have hx : IsDigit x := by
        have : x ∈ c :: rest := by rw [heq]; simp
        exact hds x this
      have hlx : ¬ lower x = 120 := by
        rw [lower_digit hx]
        obtain ⟨h1, h2⟩ := hx
        omega
      rw [if_neg hlx, e1]
      simp only [e4 (Or.inr (List.cons_ne_nil _ _)), if_true]
      exact hexp
    · rw [e1]
      simp only [e4 (Or.inr (List.cons_ne_nil _ _)), if_true]
      exact hexp
  refine ⟨_, hmain, rfl, hneg, rfl, rfl, ?_⟩
  simpa using e5

theorem ten_pow_le_two_pow (L N : ℕ) (h : 4 * L ≤ N) : (10 : ℕ) ^ L ≤ 2 ^ N :=
  calc (10 : ℕ) ^ L ≤ (2 ^ 4) ^ L := Nat.pow_le_pow_left (by norm_num) _
    _ = 2 ^ (4 * L) := (pow_mul 2 4 _).symm
    _ ≤ 2 ^ N := Nat.pow_le_pow_right (by norm_num) h

theorem ten_pow_le_two_pow_rat (L N : ℕ) (h : 4 * L ≤ N) : (10 : ℚ) ^ L ≤ 2 ^ N := by
  have := ten_pow_le_two_pow L N h
  exact_mod_cast this

theorem isNumeric_of_digits (s : GoString) (hne : s ≠ []) (hds : ∀ c ∈ s, IsDigit c)
    (hlen : s.length ≤ 255) : isNumeric s = true := by
  cases s with
  | nil => exact absurd rfl hne
  | cons c rest =>
    obtain ⟨r, hr, hrest, hneg, hhex, hexp, hmant⟩ := readFloat_digits c rest hds
    have hc : IsDigit c := hds c (List.mem_cons_self _ _)
    have hbound : (r.mant : ℚ) ≤ 2 ^ 1023 := by
      have h1 : ((r.mant + 1 : ℕ) : ℚ) ≤ ((10 ^ (c :: rest).length : ℕ) : ℚ) :=
        Nat.cast_le.mpr hmant
      have h3 := ten_pow_le_two_pow_rat (c :: rest).length 1023 (by omega)
      push_cast at h1
      linarith
    have hgrid : OnGrid ((2 : ℚ) ^ 1023) := ⟨1, 1023, by norm_num, by norm_num, by norm_num⟩
    have hval := (roundF_of_le false (r.mant : ℚ) (2 ^ 1023) (Nat.cast_nonneg _) hbound hgrid
      (by norm_num)).1
    unfold isNumeric ParseFloat
    rw [special_digit c rest hc]
    simp only [hr, hrest, hneg, hhex, hexp, ne_eq, not_true_eq_false, if_false,
      Bool.false_eq_true]
    have hp : powInt 10 0 = 1 := by decide!
    rw [hp, mul_one, hval]
    rfl

/-! ## The claims -/

/-- C10: the rows that `getProcesses` returns are the order-preserving filter of
the listing of the process-table root: entry by entry, in listing order, a
numeric-named directory contributes its row when the filter keeps it and every
other entry contributes nothing; the pids of the rows form a sublist of the
names of the listing.  The function returns whenever every numeric-named
directory yields a record. -/
theorem getProcesses_listing_order (h : Host) (filter : GoString) :
    (∀ rows, getProcesses h filter = .ok rows →
      rows = h.procDir.filterMap (keptRow h filter) ∧
      (rows.map Row.pid).Sublist (h.procDir.map DirEntry.name)) ∧
    (∀ file row, keptRow h filter file = some row →
      file.isDir = true ∧ isNumeric file.name = true ∧ row.pid = file.name) ∧
    ((∀ file ∈ h.procDir, file.isDir = true → isNumeric file.name = true →
        ∃ r, getProcessesEntry h filter file.name = .ok r) →
      ∃ rows, getProcesses h filter = .ok rows) := by
  refine ⟨?_, ?_, ?_⟩
  · intro rows hok
    have hrows := getProcessesLoop_ok h.procDir [] rows hok
    simp only [List.nil_append] at hrows
    refine ⟨hrows, ?_⟩
    rw [hrows]
    exact pids_sublist h filter h.procDir
  · intro file row hk
    exact ⟨(keptRow_some hk).1, (keptRow_some hk).2.1, entry_row_pid (keptRow_some hk).2.2⟩
  · intro hall
    exact getProcessesLoop_total h.procDir hall []

theorem getProcesses_listing_order_witness :
    getProcesses sampleHost (ascii "ali") = .ok [sampleRow2] ∧
    ([sampleRow2].map Row.pid).Sublist (sampleHost.procDir.map DirEntry.name) :=
  ⟨by decide!, ((getProcesses_listing_order sampleHost (ascii "ali")).1 [sampleRow2] (by decide!)).2⟩

/-- C1: when `getProcesses` returns, the row of a process (a numeric-named
directory of the listing, with user name `u` and displayed command `c`) is in
the output if and only if the filter is a substring of `u`, of the pid or of
`c`; with the empty filter every process has its row. -/
theorem getProcesses_filter_iff (h : Host) (filter : GoString) (rows : List Row)
    (hok : getProcesses h filter = .ok rows) (file : DirEntry) (hmem : file ∈ h.procDir)
    (hdir : file.isDir = true) (hnum : isNumeric file.name = true) :
    ∃ u c, getUserForPid h file.name = .ok u ∧ commandOf h file.name = .ok c ∧
      ((∃ row ∈ rows, row.pid = file.name ∧ row.user = u ∧ row.cmd = c) ↔
        (filter <:+: u ∨ filter <:+: file.name ∨ filter <:+: c)) ∧
      (filter = [] → ∃ row ∈ rows, row.pid = file.name ∧ row.user = u ∧ row.cmd = c) := by
  obtain ⟨r, he⟩ := entries_ok_of_ok hok file hmem hdir hnum
  obtain ⟨hfs, hms, u, c, hu, hc, hr⟩ := getProcessesEntry_inv he
  have hrows := getProcessesLoop_ok h.procDir [] rows hok
  simp only [List.nil_append] at hrows
  have hiff : (∃ row ∈ rows, row.pid = file.name ∧ row.user = u ∧ row.cmd = c) ↔
      (filter <:+: u ∨ filter <:+: file.name ∨ filter <:+: c) := by
    rw [← contains_iff_infix, ← contains_iff_infix, ← contains_iff_infix]
    constructor
    · rintro ⟨row, hrow, hpid, -, -⟩
      rw [hrows, List.mem_filterMap] at hrow
      obtain ⟨file2, -, hk⟩ := hrow
      have he2 := (keptRow_some hk).2.2
      have hname : file2.name = file.name := by rw [← entry_row_pid he2, hpid]
      rw [hname, he] at he2
      have hsome : r = some row := Except.ok.inj he2
      rw [hsome] at hr
      by_contra hcon
      have hfalse : (Contains u filter || Contains file.name filter || Contains c filter) = false := by
        simp only [not_or, Bool.not_eq_true] at hcon
        simp [hcon.1, hcon.2.1, hcon.2.2]
      simp [hfalse] at hr
    · intro hcont
      have htrue : (Contains u filter || Contains file.name filter || Contains c filter) = true := by
        simpa [Bool.or_eq_true, or_assoc] using hcont
      rw [if_pos htrue] at hr
      refine ⟨rowOf file.name u c (statFields h file.name) (memFields h) hfs hms, ?_, rfl, rfl, rfl⟩
      rw [hrows, List.mem_filterMap]
      refine ⟨file, hmem, ?_⟩
      unfold keptRow
      simp [hdir, hnum, he, hr]
  refine ⟨u, c, hu, hc, hiff, ?_⟩
  intro hempty
  rw [hiff, hempty]
  exact Or.inl List.nil_infix

theorem getProcesses_filter_iff_witness :
    ∃ u c, getUserForPid sampleHost (ascii "2") = .ok u ∧ commandOf sampleHost (ascii "2") = .ok c ∧
      ((∃ row ∈ [sampleRow2], row.pid = ascii "2" ∧ row.user = u ∧ row.cmd = c) ↔
        (ascii "ali" <:+: u ∨ ascii "ali" <:+: ascii "2" ∨ ascii "ali" <:+: c)) ∧
      (ascii "ali" = [] → ∃ row ∈ [sampleRow2], row.pid = ascii "2" ∧ row.user = u ∧ row.cmd = c) :=
  getProcesses_filter_iff sampleHost (ascii "ali") [sampleRow2] (by decide!) ⟨ascii "2", true⟩
    (by decide) (by decide) (by decide!)
/-- C2: for a command `s` longer than 50 bytes `truncateString(s, 50)` has
length exactly 50, ends with the three bytes of "..." and starts with the
first 47 bytes of `s`; a command of at most 50 bytes is returned unchanged. -/
theorem truncateString_fifty (s : GoString) :
    (50 < s.length →
      ∃ r, truncateString s 50 = .ok r ∧ r.length = 50 ∧ r.drop 47 = ascii "..." ∧
        r.take 47 = s.take 47) ∧
    (s.length ≤ 50 → truncateString s 50 = .ok s) := by
  constructor
  · intro hlen
    refine ⟨s.take 47 ++ ascii "...", ?_, ?_, ?_, ?_⟩
    · have h1 : ¬ ((s.length : Int) ≤ 50) := by omega
      simp [truncateString, h1, pure, Except.pure]
    · simp [List.length_take, ascii]; omega
    · have h47 : (s.take 47).length = 47 := by simp [List.length_take]; omega
      rw [List.drop_append_eq_append_drop, h47]
      simp
    · have h47 : (s.take 47).length = 47 := by simp [List.length_take]; omega
      rw [List.take_append_eq_append_take, h47]
      simp
  · intro hlen
    have h1 : (s.length : Int) ≤ 50 := by omega
    simp [truncateString, h1, pure, Except.pure]


theorem truncateString_fifty_witness :
    (∃ r, truncateString (List.replicate 60 97) 50 = .ok r ∧ r.length = 50 ∧
        r.drop 47 = ascii "..." ∧ r.take 47 = (List.replicate 60 97).take 47) ∧
    truncateString (ascii "top") 50 = .ok (ascii "top") :=
  ⟨(truncateString_fifty (List.replicate 60 97)).1 (by decide),
   (truncateString_fifty (ascii "top")).2 (by decide)⟩

/-- C9: for a stat line with at least 23 white-space separated fields `f`,
the row of the process has the status `f[2]`, its CPU percentage is
`(f[13] + f[14] + f[15] + f[16]) / f[21]` times 100 and its memory percentage is
`f[22] / 1024` over the total memory, times 100, each field read by
`ParseFloat` and the arithmetic being that of `float64`. -/
theorem getProcesses_stat_fields (h : Host) (filter pid u c : GoString)
    (hfs : 23 ≤ (statFields h pid).length) (hms : 2 ≤ (memFields h).length)
    (hu : getUserForPid h pid = .ok u) (hc : commandOf h pid = .ok c)
    (hkeep : (Contains u filter || Contains pid filter || Contains c filter) = true) :
    ∃ row, getProcessesEntry h filter pid = .ok (some row) ∧
      row.pid = pid ∧ row.user = u ∧ row.cmd = c ∧
      row.status = (statFields h pid)[2] ∧
      row.cpuPercent =
        (((((parseValue (statFields h pid)[13]).add (parseValue (statFields h pid)[14])).add
            (parseValue (statFields h pid)[15])).add (parseValue (statFields h pid)[16])).div
          (parseValue (statFields h pid)[21])).mul (F64.ofNat 100) ∧
      row.memPercent =
        (((parseValue (statFields h pid)[22]).div (F64.ofNat 1024)).div
          (parseValue (memFields h)[1])).mul (F64.ofNat 100) := by
  refine ⟨rowOf pid u c (statFields h pid) (memFields h) hfs hms, ?_, rfl, rfl, rfl, rfl, rfl, rfl⟩
  rw [getProcessesEntry_eq h filter pid u c hfs hms hu hc, if_pos hkeep]

theorem getProcesses_stat_fields_witness :
    ∃ row, getProcessesEntry sampleHost (ascii "") (ascii "2") = .ok (some row) ∧
      row.pid = ascii "2" ∧ row.user = ascii "alice" ∧ row.cmd = ascii "top " ∧
      row.status = (statFields sampleHost (ascii "2"))[2] ∧
      row.cpuPercent =
        (((((parseValue (statFields sampleHost (ascii "2"))[13]).add
              (parseValue (statFields sampleHost (ascii "2"))[14])).add
            (parseValue (statFields sampleHost (ascii "2"))[15])).add
            (parseValue (statFields sampleHost (ascii "2"))[16])).div
          (parseValue (statFields sampleHost (ascii "2"))[21])).mul (F64.ofNat 100) ∧
      row.memPercent =
        (((parseValue (statFields sampleHost (ascii "2"))[22]).div (F64.ofNat 1024)).div
          (parseValue (memFields sampleHost)[1])).mul (F64.ofNat 100) :=
  getProcesses_stat_fields sampleHost (ascii "") (ascii "2") (ascii "alice") (ascii "top ")
    (by decide) (by decide) (by decide!) (by decide) (by decide)

/-- C4: a numeric-named directory whose stat resource has fewer than 23 fields
(an unreadable, empty one included), or a memory info with fewer than 2
fields, makes `getProcesses` panic: no list is returned.  Only an unreadable
command line is survived: the command is always computed. -/
theorem getProcesses_short_stat_panics (h : Host) (filter : GoString) :
    (∀ file ∈ h.procDir, file.isDir = true → isNumeric file.name = true →
      (statFields h file.name).length < 23 ∨ (memFields h).length < 2 →
      ∃ p, getProcesses h filter = .error p) ∧
    (∀ pid, ∃ c, commandOf h pid = .ok c) := by
  refine ⟨?_, commandOf_ok h⟩
  intro file hmem hdir hnum hshort
  cases he : getProcessesEntry h filter file.name with
  | ok r =>
    obtain ⟨hfs, hms, -⟩ := getProcessesEntry_inv he
    omega
  | error p => exact getProcessesLoop_panics h.procDir file hmem hdir hnum p he []

theorem getProcesses_short_stat_panics_witness :
    getProcesses crashHost (ascii "") = .error Panic.indexOutOfRange ∧
    (∃ p, getProcesses crashHost (ascii "") = .error p) ∧
    commandOf crashHost (ascii "1") = .ok (ascii ".") :=
  ⟨by decide!, (getProcesses_short_stat_panics crashHost (ascii "")).1 ⟨ascii "1", true⟩
    (by decide) (by decide) (by decide!) (Or.inl (by decide)), by decide⟩

/-- C5: `getUserForPid` panics when the status resource has fewer than 8 lines
(an unreadable one has a single empty line), when the 8th line has no tab, and
when the user database has no entry for the uid; a token that is not a number
is read as uid 0, so that the name of user 0 is returned. -/
theorem getUserForPid_failures (h : Host) (pid : GoString) :
    ((Split 10 (statusOf h pid)).length < 8 →
      getUserForPid h pid = .error Panic.indexOutOfRange) ∧
    (∀ line, (Split 10 (statusOf h pid))[7]? = some line → (Split 9 line).length < 2 →
      getUserForPid h pid = .error Panic.indexOutOfRange) ∧
    (∀ line token, (Split 10 (statusOf h pid))[7]? = some line →
      (Split 9 line)[1]? = some token → h.lookupId (Itoa (Atoi token)) = none →
      getUserForPid h pid = .error Panic.nilDereference) ∧
    (∀ line token name, (Split 10 (statusOf h pid))[7]? = some line →
      (Split 9 line)[1]? = some token → isIntLiteral token = false →
      h.lookupId (ascii "0") = some name → getUserForPid h pid = .ok name) := by
  rw [getUserForPid_eq]
  refine ⟨?_, ?_, ?_, ?_⟩
  · intro hlen
    rw [index_of_le _ 7 (by omega)]
    rfl
  · intro line hline hlen
    rw [(index_ok_iff _ 7 line).mpr hline]
    simp only [Except.bind]
    rw [index_of_le _ 1 (by omega)]
  · intro line token hline htok hnone
    rw [(index_ok_iff _ 7 line).mpr hline]
    simp only [Except.bind]
    rw [(index_ok_iff _ 1 token).mpr htok]
    simp only [hnone]
  · intro line token name hline htok hlit hsome
    rw [(index_ok_iff _ 7 line).mpr hline]
    simp only [Except.bind]
    rw [(index_ok_iff _ 1 token).mpr htok]
    have hat : Atoi token = 0 := by simp [Atoi, hlit]
    have hit : Itoa 0 = ascii "0" := by decide
    simp only [hat, hit, hsome]

theorem getUserForPid_failures_witness :
    getUserForPid crashHost (ascii "1") = .error Panic.indexOutOfRange ∧
    getUserForPid (tokenHost "1000") (ascii "1") = .error Panic.nilDereference ∧
    getUserForPid (tokenHost "abc") (ascii "1") = .ok (ascii "root") :=
  ⟨(getUserForPid_failures crashHost (ascii "1")).1 (by decide),
   (getUserForPid_failures (tokenHost "1000") (ascii "1")).2.2.1
     (ascii "Uid:\t1000\t0\t0\t0") (ascii "1000") (by decide) (by decide) (by decide!),
   (getUserForPid_failures (tokenHost "abc") (ascii "1")).2.2.2
     (ascii "Uid:\tabc\t0\t0\t0") (ascii "abc") (ascii "root") (by decide) (by decide)
     (by decide) (by decide)⟩
/-- C7: for a usage `u` whose product `u * 20` (in `float64`) is finite and
fits an `int`, as it does for every fraction in `[0, 1]`, the bar of
`printUsageBar` has exactly 20 positions between its brackets, the first `k`
filled with `=` and the other `20 - k` blank, where `k` is the floor of
`u * 20` clamped to `[0, 20]`; `u = 0` fills none, `u = 1` fills all 20 and
`u = 0.33` fills 6. -/
theorem printUsageBar_cells :
    (∀ (undef : Int) (label : GoString) (usage : F64),
      (usage.mul (F64.ofNat 20)).isFinite = true →
      |F64.toRat (usage.mul (F64.ofNat 20))| < 2 ^ 63 →
      printUsageBar undef label usage =
        label ++ ascii " [" ++
          (List.replicate (max 0 (min 20 ⌊F64.toRat (usage.mul (F64.ofNat 20))⌋)).toNat 61 ++
           List.replicate (20 - (max 0 (min 20 ⌊F64.toRat (usage.mul (F64.ofNat 20))⌋)).toNat) 32)
          ++ ascii "]\n") ∧
    (∀ q : ℚ, 0 ≤ q → q ≤ 1 →
      ((F64.fin false q).mul (F64.ofNat 20)).isFinite = true ∧
      |F64.toRat ((F64.fin false q).mul (F64.ofNat 20))| < 2 ^ 63) ∧
    (∀ (undef : Int) (label : GoString),
      printUsageBar undef label (F64.ofNat 0) =
        label ++ ascii " [" ++ List.replicate 20 32 ++ ascii "]\n" ∧
      printUsageBar undef label (F64.ofNat 1) =
        label ++ ascii " [" ++ List.replicate 20 61 ++ ascii "]\n" ∧
      printUsageBar undef label (parseValue (ascii "0.33")) =
        label ++ ascii " [" ++ (List.replicate 6 61 ++ List.replicate 14 32) ++ ascii "]\n") := by
  have general : ∀ (undef : Int) (label : GoString) (usage : F64),
      (usage.mul (F64.ofNat 20)).isFinite = true →
      |F64.toRat (usage.mul (F64.ofNat 20))| < 2 ^ 63 →
      printUsageBar undef label usage =
        label ++ ascii " [" ++
          (List.replicate (max 0 (min 20 ⌊F64.toRat (usage.mul (F64.ofNat 20))⌋)).toNat 61 ++
           List.replicate (20 - (max 0 (min 20 ⌊F64.toRat (usage.mul (F64.ofNat 20))⌋)).toNat) 32)
          ++ ascii "]\n" := by
    intro undef label usage hfin hrange
    unfold printUsageBar
    simp only
    rw [usageBarCells_eq]
    cases hp : usage.mul (F64.ofNat 20) with
    | nan => rw [hp] at hfin; cases hfin
    | inf s => rw [hp] at hfin; cases hfin
    | fin s q =>
      have h0 : 0 ≤ q := mul_fin_nonneg hp
      have hq : q < 2 ^ 63 := by
        rw [hp] at hrange
        have habs : |F64.toRat (F64.fin s q)| = q := by
          cases s <;> simp [F64.toRat, abs_of_nonneg h0]
        rw [habs] at hrange
        exact hrange
      rw [toInt_clamp undef s q h0 hq]
  refine ⟨general, ?_, ?_⟩
  · intro q h0 h1
    have hgrid : OnGrid 20 := ⟨20, 0, by norm_num, by norm_num, by norm_num⟩
    obtain ⟨e1, e2, e3⟩ := roundF_of_le false (q * 20) 20 (by positivity) (by linarith) hgrid
      (by norm_num)
    have hmul : (F64.fin false q).mul (F64.ofNat 20) = F64.fin false (roundMag (q * 20)) := by
      simp only [F64.mul, F64.ofNat, bne_self_eq_false, Nat.cast_ofNat]
      exact e1
    rw [hmul]
    refine ⟨rfl, ?_⟩
    simp only [F64.toRat, Bool.false_eq_true, if_false]
    rw [abs_of_nonneg e2]
    exact lt_of_le_of_lt e3 (by norm_num)
  intro undef label
  refine ⟨?_, ?_, ?_⟩
  · rw [general undef label (F64.ofNat 0) (by decide!) (by rw [show F64.toRat ((F64.ofNat 0).mul (F64.ofNat 20)) = 0 by decide!]; norm_num)]
    rw [show (max 0 (min 20 ⌊F64.toRat ((F64.ofNat 0).mul (F64.ofNat 20))⌋)).toNat = 0 by decide!]
    rfl
  · rw [general undef label (F64.ofNat 1) (by decide!) (by rw [show F64.toRat ((F64.ofNat 1).mul (F64.ofNat 20)) = 20 by decide!]; norm_num)]
    rw [show (max 0 (min 20 ⌊F64.toRat ((F64.ofNat 1).mul (F64.ofNat 20))⌋)).toNat = 20 by decide!]
    rfl
  · rw [general undef label (parseValue (ascii "0.33")) (by decide!)
      (by rw [show F64.toRat ((parseValue (ascii "0.33")).mul (F64.ofNat 20)) = 7430939385161319 / 1125899906842624 by decide!]; norm_num [abs_of_nonneg])]
    rw [show (max 0 (min 20 ⌊F64.toRat ((parseValue (ascii "0.33")).mul (F64.ofNat 20))⌋)).toNat = 6 by decide!]

theorem printUsageBar_cells_witness :
    printUsageBar 0 (ascii "CPU Usage:") (F64.fin false (1 / 4)) =
      ascii "CPU Usage:" ++ ascii " [" ++
        (List.replicate (max 0 (min 20 ⌊F64.toRat ((F64.fin false (1 / 4)).mul (F64.ofNat 20))⌋)).toNat 61 ++
         List.replicate (20 - (max 0 (min 20 ⌊F64.toRat ((F64.fin false (1 / 4)).mul (F64.ofNat 20))⌋)).toNat) 32)
        ++ ascii "]\n" :=
  printUsageBar_cells.1 0 (ascii "CPU Usage:") (F64.fin false (1 / 4))
    (printUsageBar_cells.2.1 (1 / 4) (by norm_num) (by norm_num)).1
    (printUsageBar_cells.2.1 (1 / 4) (by norm_num) (by norm_num)).2

/-- C8 (as stated, refuted): with the well-formed non-negative numbers
total = 0 and free = 0, free ≤ total, `getMemoryInfo` returns the usage
fraction 0 / 0 = NaN, which is not in `[0, 1]`. -/
theorem getMemoryInfo_zero_total :
    ParseFloat (ascii "0") = (F64.fin false 0, none) ∧
    getMemoryInfo (memHost "0" "0") = .ok (F64.fin false 0, F64.fin false 0, F64.nan) ∧
    F64.le (F64.ofNat 0) F64.nan = false ∧ F64.le F64.nan (F64.ofNat 1) = false := by
  refine ⟨by decide!, by decide!, rfl, rfl⟩

/-- C8 (amended): when the second fields of the first two lines of the memory
info parse, without error, to finite non-negative `total` and `free` with
`free ≤ total` and `0 < total`, `getMemoryInfo` returns `total`,
`used = total - free` and `usage = used / total` (in `float64`), and
`0 ≤ usage ≤ 1`. -/
theorem getMemoryInfo_usage_bounds (h : Host) (l0 l1 : GoString) (more : List GoString)
    (k0 v0 k1 v1 : GoString) (r0 r1 : List GoString) (t f : ℚ)
    (hlines : Split 10 (h.read (ascii "/proc/meminfo")) = l0 :: l1 :: more)
    (hf0 : Fields l0 = k0 :: v0 :: r0) (hf1 : Fields l1 = k1 :: v1 :: r1)
    (ht : ParseFloat v0 = (F64.fin false t, none)) (hf : ParseFloat v1 = (F64.fin false f, none))
    (hnn : 0 ≤ f) (hle : f ≤ t) (hpos : 0 < t) :
    ∃ used usage, getMemoryInfo h = .ok (F64.fin false t, used, usage) ∧
      used = (F64.fin false t).sub (F64.fin false f) ∧
      usage = used.div (F64.fin false t) ∧
      F64.le (F64.ofNat 0) usage = true ∧ F64.le usage (F64.ofNat 1) = true := by
  have hwf := ParseFloat_wf v0
  rw [ht] at hwf
  obtain ⟨u, w, hu, hw, -, -, hw0, hw1⟩ := usage_bounds t f hwf.1 hwf.2 hnn hle hpos
  refine ⟨(F64.fin false t).sub (F64.fin false f),
    ((F64.fin false t).sub (F64.fin false f)).div (F64.fin false t), ?_, rfl, rfl, ?_, ?_⟩
  · unfold getMemoryInfo
    simp only [hlines, index, List.getElem?_cons_zero, List.getElem?_cons_succ, hf0, hf1, ht, hf,
      bind, Except.bind, pure, Except.pure]
  · rw [hu, hw]
    simp only [F64.le, F64.ofNat, F64.toRat, Bool.false_eq_true, if_false, Nat.cast_zero,
      decide_eq_true_eq]
    exact hw0
  · rw [hu, hw]
    simp only [F64.le, F64.ofNat, F64.toRat, Bool.false_eq_true, if_false, Nat.cast_one,
      decide_eq_true_eq]
    exact hw1

theorem getMemoryInfo_usage_bounds_witness :
    ∃ used usage, getMemoryInfo sampleHost = .ok (F64.fin false 4096, used, usage) ∧
      used = (F64.fin false 4096).sub (F64.fin false 1024) ∧
      usage = used.div (F64.fin false 4096) ∧
      F64.le (F64.ofNat 0) usage = true ∧ F64.le usage (F64.ofNat 1) = true :=
  getMemoryInfo_usage_bounds sampleHost (ascii "MemTotal: 4096 kB") (ascii "MemFree: 1024 kB")
    [ascii ""] (ascii "MemTotal:") (ascii "4096") (ascii "MemFree:") (ascii "1024")
    [ascii "kB"] [ascii "kB"] 4096 1024
    (by decide) (by decide) (by decide) (by decide!) (by decide!) (by norm_num) (by norm_num)
    (by norm_num)
/-- C6 (as stated, refuted): two counter lines with the same number of numeric
fields, `total2 > total1` and `idle2 - idle1 = total2 - total1`, for which
`getCPUUsage` returns NaN and not 0: the idle counter of the second sample is
the decimal integer `10 ^ 400`, which `ParseFloat` reads as `+Inf`. -/
theorem getCPUUsage_infinite_delta :
    Fields (firstLine (ascii "cpu 0 0 0 0 0\n")) =
      [ascii "cpu", ascii "0", ascii "0", ascii "0", ascii "0", ascii "0"] ∧
    Fields (firstLine hugeIdleLine) =
      [ascii "cpu", ascii "0", ascii "0", ascii "0", 49 :: List.replicate 400 48, ascii "0"] ∧
    F64.lt (totalOf [ascii "0", ascii "0", ascii "0", ascii "0", ascii "0"])
      (totalOf [ascii "0", ascii "0", ascii "0", 49 :: List.replicate 400 48, ascii "0"]) = true ∧
    (idleOf [ascii "0", ascii "0", ascii "0", 49 :: List.replicate 400 48, ascii "0"]).sub
        (idleOf [ascii "0", ascii "0", ascii "0", ascii "0", ascii "0"]) =
      (totalOf [ascii "0", ascii "0", ascii "0", 49 :: List.replicate 400 48, ascii "0"]).sub
        (totalOf [ascii "0", ascii "0", ascii "0", ascii "0", ascii "0"]) ∧
    getCPUUsage (ascii "cpu 0 0 0 0 0\n") hugeIdleLine = .ok F64.nan := by
  refine ⟨by decide!, by decide!, by decide!, by decide!, by decide!⟩

/-- C6 (amended): for two counter lines with the same number of fields after
the label, `getCPUUsage` returns `1 - (idle2 - idle1) / (total2 - total1)` in
`float64`, `total` being the sum of the fields and `idle` the field at index
3; when moreover `total2 > total1`, `idle2 - idle1 = total2 - total1` and this
difference is finite, the result is 0. -/
theorem getCPUUsage_formula (c1 c2 label1 label2 : GoString) (fs1 fs2 : List GoString)
    (h1 : Fields (firstLine c1) = label1 :: fs1) (h2 : Fields (firstLine c2) = label2 :: fs2)
    (hlen : fs1.length = fs2.length) :
    getCPUUsage c1 c2 = .ok
      ((F64.ofNat 1).sub
        (((idleOf fs2).sub (idleOf fs1)).div ((totalOf fs2).sub (totalOf fs1)))) ∧
    (F64.lt (totalOf fs1) (totalOf fs2) = true →
      (idleOf fs2).sub (idleOf fs1) = (totalOf fs2).sub (totalOf fs1) →
      ((totalOf fs2).sub (totalOf fs1)).isFinite = true →
      getCPUUsage c1 c2 = .ok (F64.fin false 0)) := by
  have heq := getCPUUsage_eq c1 c2 label1 label2 fs1 fs2 h1 h2 hlen
  refine ⟨heq, ?_⟩
  intro hlt hdelta hfin
  have hz : (F64.ofNat 0).WF := ⟨by simpa using onGrid_zero, by norm_num⟩
  rw [heq, hdelta,
    usage_zero_of_equal_delta (totalOf fs1) (totalOf fs2) (foldl_add_wf _ _ hz)
      (foldl_add_wf _ _ hz) hlt hfin]

theorem getCPUUsage_formula_witness :
    getCPUUsage (ascii "cpu 5 0 5 10 0\n") (ascii "cpu 5 0 5 30 0\n") = .ok
      ((F64.ofNat 1).sub
        (((idleOf [ascii "5", ascii "0", ascii "5", ascii "30", ascii "0"]).sub
            (idleOf [ascii "5", ascii "0", ascii "5", ascii "10", ascii "0"])).div
          ((totalOf [ascii "5", ascii "0", ascii "5", ascii "30", ascii "0"]).sub
            (totalOf [ascii "5", ascii "0", ascii "5", ascii "10", ascii "0"])))) ∧
    getCPUUsage (ascii "cpu 5 0 5 10 0\n") (ascii "cpu 5 0 5 30 0\n") = .ok (F64.fin false 0) :=
  ⟨(getCPUUsage_formula (ascii "cpu 5 0 5 10 0\n") (ascii "cpu 5 0 5 30 0\n") (ascii "cpu")
      (ascii "cpu") [ascii "5", ascii "0", ascii "5", ascii "10", ascii "0"]
      [ascii "5", ascii "0", ascii "5", ascii "30", ascii "0"] (by decide) (by decide) rfl).1,
   (getCPUUsage_formula (ascii "cpu 5 0 5 10 0\n") (ascii "cpu 5 0 5 30 0\n") (ascii "cpu")
      (ascii "cpu") [ascii "5", ascii "0", ascii "5", ascii "10", ascii "0"]
      [ascii "5", ascii "0", ascii "5", ascii "30", ascii "0"] (by decide) (by decide) rfl).2
      (by decide!) (by decide!) (by decide!)⟩
/-- C3 (as stated, refuted): `isNumeric` accepts the name "1.5", which is not
made of decimal digits only (as it accepts "1e5", "inf", "NaN" and "-1"), and
it rejects a name of 310 nines, which is. -/
theorem isNumeric_not_digits_only :
    (isNumeric (ascii "1.5") = true ∧ ¬ (ascii "1.5" ≠ [] ∧ ∀ c ∈ ascii "1.5", IsDigit c)) ∧
    isNumeric (ascii "1e5") = true ∧ isNumeric (ascii "inf") = true ∧
    isNumeric (ascii "NaN") = true ∧ isNumeric (ascii "-1") = true ∧
    (isNumeric (List.replicate 310 57) = false ∧
      (List.replicate 310 57 ≠ [] ∧ ∀ c ∈ List.replicate 310 57, IsDigit c)) := by
  refine ⟨⟨by decide!, ?_⟩, by decide!, by decide!, by decide!, by decide!, by decide!, ?_, ?_⟩
  · decide
  · decide
  · intro c hc
    rw [List.eq_of_mem_replicate hc]
    decide

/-- C3 (amended): `isNumeric(s)` is true exactly when `strconv.ParseFloat(s, 64)`
returns no error; every non-empty name made of decimal digits only, of at most
255 bytes (the longest name of a directory entry), is accepted, and among the
names "1", "2", "abc" exactly "1" and "2" are. -/
theorem isNumeric_digit_names :
    (∀ s : GoString, s ≠ [] → (∀ c ∈ s, IsDigit c) → s.length ≤ 255 → isNumeric s = true) ∧
    (∀ s : GoString, isNumeric s = true ↔ (ParseFloat s).2 = none) ∧
    [ascii "1", ascii "2", ascii "abc"].filter isNumeric = [ascii "1", ascii "2"] := by
  refine ⟨isNumeric_of_digits, ?_, by decide!⟩
  intro s
  simp [isNumeric]

theorem isNumeric_digit_names_witness : isNumeric (ascii "4242") = true :=
  isNumeric_digit_names.1 (ascii "4242") (by decide)
    (by decide) (by decide)

end TaskManager
